import Mathlib

/-!
Verification of the scfg-rs library: a parser and serializer for the scfg
line-oriented configuration format.

The development shallowly embeds the Rust sources:

* `src/scfg-rs/src/parser.rs` — the recursive block reader `read_block` and
  the top-level `document` entry point;
* `src/scfg-rs/src/lib.rs` — the `Scfg`/`Directive` document model (an
  ordered multimap of directive name to directive list) and the serializer
  `write_with_indent`.

Strings are modelled as `List Char` (`Str` below); Rust's `read_line` is
modelled by splitting the input at newline characters.  The word tokenizer
and quoter come from the external `shell_words` crate, which is not part of
this repository; it is modelled from the specification's contract for the
word tokenizer/quoter (shell-style splitting with single/double quotes, and
quoting by wrapping in single quotes when a word contains characters outside
the safe set).
-/

/-- Strings are modelled as lists of characters. -/
abbrev Str := List Char

/-- Single-quote character. -/
def cSQ : Char := Char.ofNat 39

/-- Double-quote character. -/
def cDQ : Char := Char.ofNat 34

/-- Backslash character. -/
def cBS : Char := Char.ofNat 92

/-- Backtick character. -/
def cBT : Char := Char.ofNat 96

/-- Whitespace test matching Rust's `char::is_whitespace` (the Unicode
White_Space property), used by `str::trim`. -/
def isWS (c : Char) : Bool :=
  (9 ≤ c.toNat && c.toNat ≤ 13) || c.toNat = 32 || c.toNat = 133 ||
  c.toNat = 160 || c.toNat = 5760 || (8192 ≤ c.toNat && c.toNat ≤ 8202) ||
  c.toNat = 8232 || c.toNat = 8233 || c.toNat = 8239 || c.toNat = 8287 ||
  c.toNat = 12288

/-- Model of Rust's `str::trim`: drop Unicode whitespace from both ends. -/
def trim (s : Str) : Str :=
  ((s.dropWhile isWS).reverse.dropWhile isWS).reverse

/-- Model of reading a source through `BufRead::read_line`: the list of
lines of the text, without their terminating newline characters.  A final
line without a trailing newline still counts; a trailing newline does not
produce an extra empty line (the next `read_line` returns 0 and signals
end of input). -/
def toLines : Str → List Str
  | [] => []
  | c :: cs =>
    if c = '\n' then [] :: toLines cs
    else
      match toLines cs with
      | [] => [[c]]
      | l :: ls => (c :: l) :: ls

/-- Tokenizer state, modelled from the spec: the states of the shell-word
splitting automaton of the `shell_words` crate (delimiter, backslash,
unquoted word, backslash in unquoted word, single-quoted, double-quoted,
backslash in double-quoted, comment). -/
inductive SState : Type where
  | delim : SState
  | bslash : SState
  | unquoted : SState
  | unqBslash : SState
  | single : SState
  | double : SState
  | dblBslash : SState
  | comment : SState
deriving DecidableEq

/-- Main loop of the shell-word splitter.  Modelled from the spec: tokens
are delimited by unquoted whitespace; single- and double-quoted spans
preserve embedded whitespace and are unescaped per shell-word conventions;
an unterminated quote is a tokenization error (`none`); an unquoted `#`
at the start of a word begins a comment.  `w` is the word accumulator and
`acc` the list of completed words. -/
def splitLoop : SState → Str → List Str → Str → Option (List Str)
  | .delim, _, acc, [] => some acc
  | .delim, w, acc, c :: cs =>
    if c = cSQ then splitLoop .single w acc cs
    else if c = cDQ then splitLoop .double w acc cs
    else if c = cBS then splitLoop .bslash w acc cs
    else if c = '\t' || c = ' ' || c = '\n' then splitLoop .delim w acc cs
    else if c = '#' then splitLoop .comment w acc cs
    else splitLoop .unquoted (w ++ [c]) acc cs
  | .bslash, w, acc, [] => some (acc ++ [w ++ [cBS]])
  | .bslash, w, acc, c :: cs =>
    if c = '\n' then splitLoop .delim w acc cs
    else splitLoop .unquoted (w ++ [c]) acc cs
  | .unquoted, w, acc, [] => some (acc ++ [w])
  | .unquoted, w, acc, c :: cs =>
    if c = cSQ then splitLoop .single w acc cs
    else if c = cDQ then splitLoop .double w acc cs
    else if c = cBS then splitLoop .unqBslash w acc cs
    else if c = '\t' || c = ' ' || c = '\n' then splitLoop .delim [] (acc ++ [w]) cs
    else splitLoop .unquoted (w ++ [c]) acc cs
  | .unqBslash, w, acc, [] => some (acc ++ [w ++ [cBS]])
  | .unqBslash, w, acc, c :: cs =>
    if c = '\n' then splitLoop .unquoted w acc cs
    else splitLoop .unquoted (w ++ [c]) acc cs
  | .single, _, _, [] => none
  | .single, w, acc, c :: cs =>
    if c = cSQ then splitLoop .unquoted w acc cs
    else splitLoop .single (w ++ [c]) acc cs
  | .double, _, _, [] => none
  | .double, w, acc, c :: cs =>
    if c = cDQ then splitLoop .unquoted w acc cs
    else if c = cBS then splitLoop .dblBslash w acc cs
    else splitLoop .double (w ++ [c]) acc cs
  | .dblBslash, _, _, [] => none
  | .dblBslash, w, acc, c :: cs =>
    if c = '\n' then splitLoop .double w acc cs
    else if c = cDQ || c = cBS || c = '$' || c = cBT then
      splitLoop .double (w ++ [c]) acc cs
    else splitLoop .double (w ++ [cBS, c]) acc cs
  | .comment, _, acc, [] => some acc
  | .comment, w, acc, c :: cs =>
    if c = '\n' then splitLoop .delim w acc cs
    else splitLoop .comment w acc cs

/-- Model of `shell_words::split`: split a line into shell words, `none` on
an unterminated quote. -/
def splitWords (s : Str) : Option (List Str) :=
  splitLoop .delim [] [] s

/-- Characters that `shell_words::quote` leaves unquoted: ASCII letters,
digits, and `-`, `_`, `=`, `/`, `,`, `.`, `+` (stated on scalar values,
mirroring the byte-range check of the quoter). -/
def allowedChar (c : Char) : Bool :=
  (97 ≤ c.toNat && c.toNat ≤ 122) || (65 ≤ c.toNat && c.toNat ≤ 90) ||
  (48 ≤ c.toNat && c.toNat ≤ 57) || c.toNat = 45 || c.toNat = 95 ||
  c.toNat = 61 || c.toNat = 47 || c.toNat = 44 || c.toNat = 46 || c.toNat = 43

/-- Escape of a word body for single-quoting: every embedded single quote
is replaced by the four characters quote, backslash, quote, quote. -/
def escSQ : Str → Str
  | [] => []
  | c :: cs => if c = cSQ then cSQ :: cBS :: cSQ :: cSQ :: escSQ cs else c :: escSQ cs

/-- Model of `shell_words::quote` (modelled from the spec's quoter
contract): the empty word becomes a pair of single quotes; a word
containing any character outside the safe set is wrapped in single quotes
with embedded single quotes escaped; otherwise the word is rendered
verbatim. -/
def quoteWord (w : Str) : Str :=
  if w = [] then [cSQ, cSQ]
  else if w.any (fun c => !allowedChar c) then cSQ :: (escSQ w ++ [cSQ])
  else w

example : splitWords ('a' :: ' ' :: cSQ :: 'b' :: ' ' :: 'c' :: cSQ :: []) =
    some [['a'], ['b', ' ', 'c']] := by decide

example : splitWords ('#' :: 'x' :: []) = some [] := by decide

example : splitWords (cSQ :: 'x' :: []) = none := by decide

example : quoteWord ['a', ' ', 'b'] = cSQ :: 'a' :: ' ' :: 'b' :: cSQ :: [] := by decide

example : quoteWord ['a', cSQ] = cSQ :: 'a' :: cSQ :: cBS :: cSQ :: cSQ :: cSQ :: [] := by
  decide

example : splitWords (quoteWord ['a', cSQ]) = some [['a', cSQ]] := by decide

example : toLines ('a' :: '\n' :: '\n' :: 'b' :: []) = [['a'], [], ['b']] := by decide

example : trim ('\t' :: ' ' :: 'a' :: ' ' :: []) = ['a'] := by decide

/-- Key-ordering mode of the multimap backing an `Scfg` document:
`sorted` models the default `BTreeMap` (keys sorted by name) and
`preserveOrder` models the `preserve_order` feature's `IndexMap`
(keys in order of first insertion). -/
inductive Mode : Type where
  | sorted : Mode
  | preserveOrder : Mode
deriving DecidableEq

mutual

/-- An scfg document: a multimap from directive name to the list of
directives sharing that name, modelled as the map's entry list in
iteration order. -/
inductive Scfg : Type where
  | mk (directives : List (Str × List Directive)) : Scfg

/-- A single scfg directive: its parameters, and possibly one child
block. -/
inductive Directive : Type where
  | mk (params : List Str) (child : Option Scfg) : Directive

end

/-- Entry list of a document. -/
def Scfg.directives : Scfg → List (Str × List Directive)
  | .mk es => es

/-- Empty document (`Scfg::new`). -/
def Scfg.empty : Scfg := .mk []

/-- Parameters of a directive. -/
def Directive.params : Directive → List Str
  | .mk ps _ => ps

/-- Child block of a directive, if any. -/
def Directive.child : Directive → Option Scfg
  | .mk _ c => c

/-- Empty directive (`Directive::default`). -/
def Directive.default : Directive := .mk [] none

/-- Lexicographic comparison on strings by scalar value; this matches the
`Ord` instance on Rust's `String` (byte order), since UTF-8 byte order
agrees with scalar-value order. -/
def ltStr : Str → Str → Bool
  | [], [] => false
  | [], _ :: _ => true
  | _ :: _, [] => false
  | a :: as, b :: bs =>
    if a.toNat < b.toNat then true
    else if b.toNat < a.toNat then false
    else ltStr as bs

/-- Map insertion for the sorted (`BTreeMap`) mode, as performed by
`Scfg::add_directive`: `entry(name).or_insert_with(Vec::new).push(dir)`.
An existing key's bucket gets the directive appended; a fresh key is
placed at its sorted position with a singleton bucket. -/
def addEntrySorted : List (Str × List Directive) → Str → Directive →
    List (Str × List Directive)
  | [], n, dir => [(n, [dir])]
  | (k, ds) :: rest, n, dir =>
    if n = k then (k, ds ++ [dir]) :: rest
    else if ltStr n k then (n, [dir]) :: (k, ds) :: rest
    else (k, ds) :: addEntrySorted rest n dir

/-- Map insertion for the insertion-order (`IndexMap`) mode, as performed
by `Scfg::add_directive`: an existing key's bucket gets the directive
appended; a fresh key goes to the end of the entry list. -/
def addEntryPres : List (Str × List Directive) → Str → Directive →
    List (Str × List Directive)
  | [], n, dir => [(n, [dir])]
  | (k, ds) :: rest, n, dir =>
    if n = k then (k, ds ++ [dir]) :: rest
    else (k, ds) :: addEntryPres rest n dir

/-- Model of the private `Scfg::add_directive`, dispatching on the map
mode. -/
def Scfg.addDirective (mode : Mode) (d : Scfg) (n : Str) (dir : Directive) : Scfg :=
  match mode with
  | .sorted => .mk (addEntrySorted d.directives n dir)
  | .preserveOrder => .mk (addEntryPres d.directives n dir)

/-- Model of `Scfg::add`: append a new empty directive under `name`. -/
def Scfg.add (mode : Mode) (d : Scfg) (n : Str) : Scfg :=
  d.addDirective mode n Directive.default

/-- Key lookup in the entry list; observationally this is `Map::get` for
both backing maps. -/
def lookupEntries : List (Str × List Directive) → Str → Option (List Directive)
  | [], _ => none
  | (k, ds) :: rest, n => if n = k then some ds else lookupEntries rest n

/-- Model of `Scfg::get_all`: all directives with a given name. -/
def Scfg.getAll (d : Scfg) (n : Str) : Option (List Directive) :=
  lookupEntries d.directives n

/-- Model of `Scfg::get`: `directives.get(name).and_then(|d| d.first())`. -/
def Scfg.get (d : Scfg) (n : Str) : Option Directive :=
  (d.getAll n).bind List.head?

/-- Model of `Scfg::contains`: key presence. -/
def Scfg.contains (d : Scfg) (n : Str) : Bool :=
  (lookupEntries d.directives n).isSome

/-- Position of a key in the entry list, used by the insertion-order
remove model. -/
def findKeyIdx (es : List (Str × List Directive)) (n : Str) : Option Nat :=
  es.findIdx? (fun p => p.1 = n)

/-- Entry removal for the sorted (`BTreeMap`) mode: delete the key,
preserving the order of the remaining entries. -/
def removeEntriesSorted : List (Str × List Directive) → Str →
    Option (List Directive) × List (Str × List Directive)
  | [], _ => (none, [])
  | (k, ds) :: rest, n =>
    if n = k then (some ds, rest)
    else
      let r := removeEntriesSorted rest n
      (r.1, (k, ds) :: r.2)

/-- Entry removal for the insertion-order (`IndexMap`) mode:
`IndexMap::remove` is a swap-remove, moving the last entry into the
vacated slot. -/
def removeEntriesPres (es : List (Str × List Directive)) (n : Str) :
    Option (List Directive) × List (Str × List Directive) :=
  match findKeyIdx es n with
  | none => (none, es)
  | some i =>
    match es.getLast? with
    | none => (none, es)
    | some last => ((es.get? i).map Prod.snd, (es.dropLast).set i last)

/-- Model of `Scfg::remove`: remove all directives with the supplied name,
returning them and the updated document. -/
def Scfg.remove (mode : Mode) (d : Scfg) (n : Str) : Option (List Directive) × Scfg :=
  match mode with
  | .sorted =>
    let r := removeEntriesSorted d.directives n
    (r.1, .mk r.2)
  | .preserveOrder =>
    let r := removeEntriesPres d.directives n
    (r.1, .mk r.2)

/-- Model of `Directive::append_param`. -/
def Directive.appendParam (d : Directive) (p : Str) : Directive :=
  .mk (d.params ++ [p]) d.child

/-- Model of `Directive::get_or_create_child` (the updated directive; the
returned mutable child is its `child` field). -/
def Directive.getOrCreateChild (d : Directive) : Directive :=
  match d.child with
  | some _ => d
  | none => .mk d.params (some Scfg.empty)

/-- Error kinds of `parser::ErrorKind`.  The `Io` variant can only arise
from parsing a string through `Scfg::from_str` as the synthesized
end-of-input error (`io::ErrorKind::UnexpectedEof`), since reading from a
`Cursor` over a byte slice never fails. -/
inductive PErrorKind : Type where
  | unexpectedClosingBrace : PErrorKind
  | ioUnexpectedEof : PErrorKind
  | shellWords : PErrorKind
deriving DecidableEq

/-- Parse error of `parser::Error`: a kind plus the 1-based line number. -/
structure PError : Type where
  kind : PErrorKind
  lineno : Nat
deriving DecidableEq

/-- Token that opens a child block: the single-character word consisting
of an opening brace. -/
def obraceWord : Str := ['{']

/-- Name and parameters extracted from the word list of a block-opening
line after the trailing brace token has been removed: the name is the
first remaining word, or the empty string if none remain. -/
def nameAndParams : List Str → Str × List Str
  | [] => ([], [])
  | n :: ps => (n, ps)

/-- Core of `parser::read_block`, by well-founded recursion on the number
of remaining lines.  `block` is the accumulated document of the current
block (the Rust loop mutates `block` in place), `n` the line counter
before the next read.  Returns the block, whether parsing stopped on a
closing-brace line (`true`) or on end of input (`false`), the remaining
lines (with a bound used for termination), and the updated line
counter. -/
def readBlockCore (mode : Mode) (block : Scfg) :
    (lines : List Str) → Nat →
    Except PError (Scfg × Bool × { rem : List Str // rem.length ≤ lines.length } × Nat)
  | [], n => .ok (block, false, ⟨[], Nat.le_refl 0⟩, n + 1)
  | l :: rest, n =>
    match splitWords (trim l) with
    | none => .error ⟨.shellWords, n + 1⟩
    | some [] =>
      match readBlockCore mode block rest (n + 1) with
      | .error e => .error e
      | .ok (d, b, rem, n2) => .ok (d, b, ⟨rem.val, Nat.le_succ_of_le rem.2⟩, n2)
    | some (w :: ws) =>
      if ws = [] ∧ (trim l).getLast? = some '}' then
        .ok (block, true, ⟨rest, Nat.le_succ rest.length⟩, n + 1)
      else if (w :: ws).getLast? = some obraceWord ∧ (trim l).getLast? = some '{' then
        match readBlockCore mode Scfg.empty rest (n + 1) with
        | .error e => .error e
        | .ok (_, false, _, n2) => .error ⟨.ioUnexpectedEof, n2⟩
        | .ok (child, true, rem, n2) =>
          match readBlockCore mode
              (block.addDirective mode (nameAndParams ((w :: ws).dropLast)).1
                (Directive.mk (nameAndParams ((w :: ws).dropLast)).2 (some child)))
              rem.val n2 with
          | .error e => .error e
          | .ok (d, b, rem2, n3) =>
            .ok (d, b, ⟨rem2.val, Nat.le_succ_of_le (Nat.le_trans rem2.2 rem.2)⟩, n3)
      else
        match readBlockCore mode (block.addDirective mode w (Directive.mk ws none))
            rest (n + 1) with
        | .error e => .error e
        | .ok (d, b, rem2, n3) => .ok (d, b, ⟨rem2.val, Nat.le_succ_of_le rem2.2⟩, n3)
termination_by lines => lines.length
decreasing_by
  all_goals simp_wf
  all_goals omega

/-- Model of `parser::read_block`, with the termination bookkeeping of
`readBlockCore` erased from the result. -/
def readBlock (mode : Mode) (block : Scfg) (lines : List Str) (n : Nat) :
    Except PError (Scfg × Bool × List Str × Nat) :=
  match readBlockCore mode block lines n with
  | .error e => .error e
  | .ok (d, b, rem, n2) => .ok (d, b, rem.val, n2)

/-- Model of `parser::document`: read the top-level block starting at line
counter 0; stopping on a closing brace there is an unexpected-closing-brace
error at that line. -/
def documentLines (mode : Mode) (lines : List Str) : Except PError Scfg :=
  match readBlock mode Scfg.empty lines 0 with
  | .error e => .error e
  | .ok (_, true, _, n) => .error ⟨.unexpectedClosingBrace, n⟩
  | .ok (d, false, _, _) => .ok d

/-- Model of `Scfg::from_str` (the `FromStr` instance): parse a text by
reading it line by line. -/
def parseScfg (mode : Mode) (s : Str) : Except PError Scfg :=
  documentLines mode (toLines s)

/-- Indentation: one tab character per nesting depth. -/
def tabs : Nat → Str
  | 0 => []
  | n + 1 => '\t' :: tabs n

/-- Rendered parameter list: a leading space before each quoted
parameter. -/
def paramsStr : List Str → Str
  | [] => []
  | p :: ps => (' ' :: quoteWord p) ++ paramsStr ps

mutual

/-- Model of `Scfg::write_with_indent`, outer loop over the map's entry
list.  `pre` is the pending separator (the `prefix` variable): a newline
that is written before the next directive and reset. -/
def writeEntries (ind : Nat) (pre : Str) : List (Str × List Directive) → Str
  | [] => []
  | (name, ds) :: rest => writeBucket ind pre name ds rest
termination_by es => sizeOf es
decreasing_by all_goals simp_wf <;> omega

/-- Model of `Scfg::write_with_indent`, inner loop over one name's
directive bucket, continuing with the remaining entries.  A childless
directive ends its line with a newline; a directive with a child emits
the open brace, the child at depth ` + 1`, the matching indent, the close
brace and a newline, and sets the pending separator to a newline. -/
def writeBucket (ind : Nat) (pre : Str) (name : Str) :
    List Directive → List (Str × List Directive) → Str
  | [], rest => writeEntries ind pre rest
  | Directive.mk ps none :: ds, rest =>
    pre ++ tabs ind ++ quoteWord name ++ paramsStr ps ++
    '\n' :: writeBucket ind [] name ds rest
  | Directive.mk ps (some child) :: ds, rest =>
    pre ++ tabs ind ++ quoteWord name ++ paramsStr ps ++
    (' ' :: '{' :: '\n' :: []) ++ writeDoc (ind + 1) child ++ tabs ind ++
    ('}' :: '\n' :: []) ++ writeBucket ind ['\n'] name ds rest
termination_by ds rest => sizeOf ds + sizeOf rest
decreasing_by all_goals simp_wf <;> omega

/-- Model of `Scfg::write_with_indent` on a whole document, with the
pending separator initialized to the empty string. -/
def writeDoc (ind : Nat) : Scfg → Str
  | .mk es => writeEntries ind [] es
termination_by d => sizeOf d
decreasing_by all_goals simp_wf <;> omega

end

/-- Model of `Scfg::write`: serialize at depth 0. -/
def Scfg.write (d : Scfg) : Str := writeDoc 0 d

/-- Word with no embedded newline.  A newline inside a directive name or
parameter is the one character the serializer's quoting cannot protect,
since the parser reads the text line by line. -/
def noNL (w : Str) : Bool := w.all (fun c => c != '\n')

/-- Key list of an entry list. -/
def keysOf (es : List (Str × List Directive)) : List Str := es.map Prod.fst

/-- Strictly sorted key list (the invariant of the `BTreeMap` mode). -/
def strictSorted : List Str → Bool
  | [] => true
  | [_] => true
  | a :: b :: t => ltStr a b && strictSorted (b :: t)

/-- Pairwise distinct key list (the invariant of the `IndexMap` mode). -/
def allDistinct : List Str → Bool
  | [] => true
  | a :: t => !t.contains a && allDistinct t

/-- Key ordering invariant of the multimap, by mode. -/
def keysOrdered : Mode → List Str → Bool
  | .sorted, ks => strictSorted ks
  | .preserveOrder, ks => allDistinct ks

mutual

/-- Document validity for round-tripping: the entry list satisfies the
backing map's key invariant, every bucket is non-empty, and all names and
parameters (recursively) are free of newlines. -/
def validDoc (mode : Mode) : Scfg → Bool
  | .mk es => keysOrdered mode (keysOf es) && validEntries mode es
termination_by d => sizeOf d
decreasing_by all_goals simp_wf <;> omega

/-- Entry-list part of `validDoc`. -/
def validEntries (mode : Mode) : List (Str × List Directive) → Bool
  | [] => true
  | (n, ds) :: rest =>
    noNL n && !ds.isEmpty && validBucket mode ds && validEntries mode rest
termination_by es => sizeOf es
decreasing_by all_goals simp_wf <;> omega

/-- Bucket part of `validDoc`. -/
def validBucket (mode : Mode) : List Directive → Bool
  | [] => true
  | d :: ds => validDir mode d && validBucket mode ds
termination_by ds => sizeOf ds
decreasing_by all_goals simp_wf <;> omega

/-- Directive part of `validDoc`: newline-free parameters and a valid
child, if any. -/
def validDir (mode : Mode) : Directive → Bool
  | .mk ps none => ps.all noNL
  | .mk ps (some c) => ps.all noNL && validDoc mode c
termination_by d => sizeOf d
decreasing_by all_goals simp_wf <;> omega

end

mutual

/-- Non-empty-bucket invariant: every name present as a key, at any
nesting depth, maps to a non-empty directive list. -/
def neDoc : Scfg → Bool
  | .mk es => neEntries es
termination_by d => sizeOf d
decreasing_by all_goals simp_wf <;> omega

/-- Entry-list part of `neDoc`. -/
def neEntries : List (Str × List Directive) → Bool
  | [] => true
  | (_, ds) :: rest => !ds.isEmpty && neBucket ds && neEntries rest
termination_by es => sizeOf es
decreasing_by all_goals simp_wf <;> omega

/-- Bucket part of `neDoc`. -/
def neBucket : List Directive → Bool
  | [] => true
  | Directive.mk _ none :: ds => neBucket ds
  | Directive.mk _ (some c) :: ds => neDoc c && neBucket ds
termination_by ds => sizeOf ds
decreasing_by all_goals simp_wf <;> omega

end

theorem sizeOf_child_lt {es : List (Str × List Directive)} {n : Str}
    {ds : List Directive} {dir : Directive} {c : Scfg}
    (h1 : (n, ds) ∈ es) (h2 : dir ∈ ds) (h3 : dir.child = some c) :
    sizeOf c < sizeOf (Scfg.mk es) := by
  have hds : sizeOf (n, ds) ≤ sizeOf es := Nat.le_of_lt (List.sizeOf_lt_of_mem h1)
  have hdir : sizeOf dir ≤ sizeOf ds := Nat.le_of_lt (List.sizeOf_lt_of_mem h2)
  have hc : sizeOf c < sizeOf dir := by
    cases dir with
    | mk ps ch =>
      cases ch with
      | none => simp [Directive.child] at h3
      | some c2 =>
        simp only [Directive.child, Option.some.injEq] at h3
        subst h3
        simp
        omega
  simp only [Prod.mk.sizeOf_spec] at hds
  simp only [Scfg.mk.sizeOf_spec]
  omega

/-- Strong induction principle for documents: to prove `P` of every
document, it suffices to prove it of `Scfg.mk es` assuming it for every
child document appearing in `es`. -/
theorem scfgRecAux (P : Scfg → Prop)
    (h : ∀ es, (∀ n ds dir c, (n, ds) ∈ es → dir ∈ ds → dir.child = some c → P c) →
      P (.mk es)) : ∀ d, P d
  | .mk es => h es (fun n ds dir c h1 h2 h3 =>
      have : sizeOf c < sizeOf (Scfg.mk es) := sizeOf_child_lt h1 h2 h3
      scfgRecAux P h c)
termination_by d => sizeOf d
decreasing_by
  simp only [Scfg.mk.sizeOf_spec] at this
  simp_wf
  omega

theorem readBlock_nil (mode : Mode) (block : Scfg) (n : Nat) :
    readBlock mode block [] n = .ok (block, false, [], n + 1) := by
  simp [readBlock, readBlockCore]

theorem readBlock_tokErr (mode : Mode) (block : Scfg) (l : Str) (rest : List Str)
    (n : Nat) (h : splitWords (trim l) = none) :
    readBlock mode block (l :: rest) n = .error ⟨.shellWords, n + 1⟩ := by
  simp [readBlock, readBlockCore, h]

theorem readBlock_skip (mode : Mode) (block : Scfg) (l : Str) (rest : List Str)
    (n : Nat) (h : splitWords (trim l) = some []) :
    readBlock mode block (l :: rest) n = readBlock mode block rest (n + 1) := by
  simp only [readBlock]
  rw [readBlockCore]
  simp only [h]
  cases hc : readBlockCore mode block rest (n + 1) with
  | error e => rfl
  | ok v => rfl

theorem readBlock_close (mode : Mode) (block : Scfg) (l : Str) (rest : List Str)
    (n : Nat) (w : Str) (h : splitWords (trim l) = some [w])
    (h2 : (trim l).getLast? = some '}') :
    readBlock mode block (l :: rest) n = .ok (block, true, rest, n + 1) := by
  simp only [readBlock]
  rw [readBlockCore]
  simp [h, h2]

theorem readBlock_open (mode : Mode) (block : Scfg) (l : Str) (rest : List Str)
    (n : Nat) (w : Str) (ws : List Str) (h : splitWords (trim l) = some (w :: ws))
    (hnc : ¬(ws = [] ∧ (trim l).getLast? = some '}'))
    (hlast : (w :: ws).getLast? = some obraceWord)
    (hb : (trim l).getLast? = some '{') :
    readBlock mode block (l :: rest) n =
      match readBlock mode Scfg.empty rest (n + 1) with
      | .error e => .error e
      | .ok (_, false, _, n2) => .error ⟨.ioUnexpectedEof, n2⟩
      | .ok (child, true, rem, n2) =>
        readBlock mode
          (block.addDirective mode (nameAndParams ((w :: ws).dropLast)).1
            (Directive.mk (nameAndParams ((w :: ws).dropLast)).2 (some child)))
          rem n2 := by
  simp only [readBlock]
  rw [readBlockCore]
  simp only [h]
  rw [if_neg hnc, if_pos (And.intro hlast hb)]
  cases hc : readBlockCore mode Scfg.empty rest (n + 1) with
  | error e => rfl
  | ok v =>
    obtain ⟨child, b, rem, n2⟩ := v
    cases b with
    | false => rfl
    | true =>
      simp only []
      split
      next e he =>
        revert he
        cases hc2 : readBlockCore mode
            (Scfg.addDirective mode block (nameAndParams ((w :: ws).dropLast)).1
              (Directive.mk (nameAndParams ((w :: ws).dropLast)).2 (some child)))
            rem.val n2 with
        | error e2 => intro he; simp only [] at he; simpa using he.symm
        | ok v2 => intro he; simp at he
      next d2 b2 rem2 n3 hv2 =>
        revert hv2
        cases hc2 : readBlockCore mode
            (Scfg.addDirective mode block (nameAndParams ((w :: ws).dropLast)).1
              (Directive.mk (nameAndParams ((w :: ws).dropLast)).2 (some child)))
            rem.val n2 with
        | error e2 => intro hv2; simp at hv2
        | ok v2 =>
          intro hv2
          simp only [Except.ok.injEq, Prod.mk.injEq] at hv2
          obtain ⟨h1, h2, h3, h4⟩ := hv2
          subst h1 h2 h4
          simp [← h3]

theorem readBlock_flat (mode : Mode) (block : Scfg) (l : Str) (rest : List Str)
    (n : Nat) (w : Str) (ws : List Str) (h : splitWords (trim l) = some (w :: ws))
    (hnc : ¬(ws = [] ∧ (trim l).getLast? = some '}'))
    (hno : ¬((w :: ws).getLast? = some obraceWord ∧ (trim l).getLast? = some '{')) :
    readBlock mode block (l :: rest) n =
      readBlock mode (block.addDirective mode w (Directive.mk ws none)) rest (n + 1) := by
  simp only [readBlock]
  rw [readBlockCore]
  simp only [h]
  rw [if_neg hnc, if_neg hno]
  cases hc : readBlockCore mode (block.addDirective mode w (Directive.mk ws none))
      rest (n + 1) with
  | error e => rfl
  | ok v => rfl

theorem allowed_arith {c : Char} (h : allowedChar c = true) :
    (97 ≤ c.toNat ∧ c.toNat ≤ 122) ∨ (65 ≤ c.toNat ∧ c.toNat ≤ 90) ∨
    (48 ≤ c.toNat ∧ c.toNat ≤ 57) ∨ c.toNat = 45 ∨ c.toNat = 95 ∨
    c.toNat = 61 ∨ c.toNat = 47 ∨ c.toNat = 44 ∨ c.toNat = 46 ∨ c.toNat = 43 := by
  simp only [allowedChar, Bool.or_eq_true, Bool.and_eq_true, decide_eq_true_eq] at h
  tauto

theorem allowed_not_ws {c : Char} (h : allowedChar c = true) : isWS c = false := by
  have h2 := allowed_arith h
  rw [Bool.eq_false_iff]
  intro h3
  simp only [isWS, Bool.or_eq_true, Bool.and_eq_true, decide_eq_true_eq] at h3
  omega

theorem toNat_ne_imp_ne {c d : Char} (h : c.toNat ≠ d.toNat) : c ≠ d := by
  intro h2
  exact h (congrArg Char.toNat h2)

theorem allowed_ne_sq {c : Char} (h : allowedChar c = true) : c ≠ cSQ :=
  toNat_ne_imp_ne (by
    have h2 := allowed_arith h
    have e : cSQ.toNat = 39 := by decide
    omega)

theorem allowed_ne_dq {c : Char} (h : allowedChar c = true) : c ≠ cDQ :=
  toNat_ne_imp_ne (by
    have h2 := allowed_arith h
    have e : cDQ.toNat = 34 := by decide
    omega)

theorem allowed_ne_bs {c : Char} (h : allowedChar c = true) : c ≠ cBS :=
  toNat_ne_imp_ne (by
    have h2 := allowed_arith h
    have e : cBS.toNat = 92 := by decide
    omega)

theorem allowed_ne_tab {c : Char} (h : allowedChar c = true) : c ≠ '\t' :=
  toNat_ne_imp_ne (by
    have h2 := allowed_arith h
    have e : Char.toNat '\t' = 9 := by decide
    omega)

theorem allowed_ne_sp {c : Char} (h : allowedChar c = true) : c ≠ ' ' :=
  toNat_ne_imp_ne (by
    have h2 := allowed_arith h
    have e : Char.toNat ' ' = 32 := by decide
    omega)

theorem allowed_ne_nl {c : Char} (h : allowedChar c = true) : c ≠ '\n' :=
  toNat_ne_imp_ne (by
    have h2 := allowed_arith h
    have e : Char.toNat '\n' = 10 := by decide
    omega)

theorem allowed_ne_hash {c : Char} (h : allowedChar c = true) : c ≠ '#' :=
  toNat_ne_imp_ne (by
    have h2 := allowed_arith h
    have e : Char.toNat '#' = 35 := by decide
    omega)

theorem splitLoop_safe_run {w : Str} (hw : ∀ c ∈ w, allowedChar c = true) :
    ∀ (wacc : Str) (acc : List Str) (rest : Str),
    splitLoop .unquoted wacc acc (w ++ rest) = splitLoop .unquoted (wacc ++ w) acc rest := by
  induction w with
  | nil => intro wacc acc rest; simp
  | cons c cs ih =>
    intro wacc acc rest
    have hc : allowedChar c = true := hw c (List.mem_cons_self c cs)
    have hcs : ∀ d ∈ cs, allowedChar d = true := fun d hd => hw d (List.mem_cons_of_mem c hd)
    simp only [List.cons_append]
    simp only [splitLoop]
    rw [if_neg (allowed_ne_sq hc), if_neg (allowed_ne_dq hc), if_neg (allowed_ne_bs hc)]
    rw [if_neg (by simp [allowed_ne_tab hc, allowed_ne_sp hc, allowed_ne_nl hc])]
    rw [ih hcs]
    simp

theorem sq_ne_dq : (cSQ = cDQ) = False := eq_false (by decide)

theorem sq_ne_bs : (cSQ = cBS) = False := eq_false (by decide)

theorem sq_ne_tab : (cSQ = '\t') = False := eq_false (by decide)

theorem sq_ne_sp : (cSQ = ' ') = False := eq_false (by decide)

theorem sq_ne_nl : (cSQ = '\n') = False := eq_false (by decide)

theorem sq_ne_hash : (cSQ = '#') = False := eq_false (by decide)

theorem bs_ne_sq : (cBS = cSQ) = False := eq_false (by decide)

theorem bs_ne_dq : (cBS = cDQ) = False := eq_false (by decide)

theorem splitLoop_quoted_run (w : Str) :
    ∀ (wacc : Str) (acc : List Str) (rest : Str),
    splitLoop .single wacc acc (escSQ w ++ cSQ :: rest) =
      splitLoop .unquoted (wacc ++ w) acc rest := by
  induction w with
  | nil =>
    intro wacc acc rest
    simp [escSQ, splitLoop]
  | cons c cs ih =>
    intro wacc acc rest
    by_cases hc : c = cSQ
    · subst hc
      simp only [escSQ, if_pos rfl, List.cons_append]
      simp [splitLoop, sq_ne_dq, sq_ne_bs, sq_ne_tab, sq_ne_sp, sq_ne_nl, sq_ne_hash,
        bs_ne_sq, bs_ne_dq, ih]
    · simp only [escSQ, if_neg hc, List.cons_append]
      simp only [splitLoop]
      rw [if_neg hc]
      rw [ih]
      simp

theorem splitLoop_word (w : Str) (acc : List Str) (rest : Str) :
    splitLoop .delim [] acc (quoteWord w ++ rest) = splitLoop .unquoted w acc rest := by
  by_cases h0 : w = []
  · subst h0
    simp only [quoteWord, if_pos rfl, List.cons_append, List.nil_append]
    simp [splitLoop]
  · by_cases h1 : w.any (fun c => !allowedChar c)
    · simp only [quoteWord, if_neg h0, if_pos h1, List.cons_append, List.append_assoc,
        List.nil_append]
      simp only [splitLoop]
      have := splitLoop_quoted_run w [] acc rest
      simp only [List.nil_append] at this
      simpa using this
    · have hall : ∀ c ∈ w, allowedChar c = true := by
        intro c hc
        by_contra h2
        exact h1 (List.any_eq_true.mpr ⟨c, hc, by simp [h2]⟩)
      simp only [quoteWord, if_neg h0, if_neg h1]
      obtain ⟨c, cs, rfl⟩ := List.exists_cons_of_ne_nil h0
      have hc : allowedChar c = true := hall c (List.mem_cons_self c cs)
      simp only [List.cons_append]
      simp only [splitLoop]
      rw [if_neg (allowed_ne_sq hc), if_neg (allowed_ne_dq hc), if_neg (allowed_ne_bs hc)]
      rw [if_neg (by simp [allowed_ne_tab hc, allowed_ne_sp hc, allowed_ne_nl hc])]
      rw [if_neg (allowed_ne_hash hc)]
      rw [splitLoop_safe_run (fun d hd => hall d (List.mem_cons_of_mem c hd))]
      simp

theorem splitLoop_sep (w : Str) (acc : List Str) (rest : Str) :
    splitLoop .unquoted w acc (' ' :: rest) = splitLoop .delim [] (acc ++ [w]) rest := by
  simp only [splitLoop]
  rw [if_neg (by decide), if_neg (by decide), if_neg (by decide), if_pos (by decide)]

theorem splitLoop_unquoted_nil (w : Str) (acc : List Str) :
    splitLoop .unquoted w acc [] = some (acc ++ [w]) := by
  simp only [splitLoop]

/-- Last word of a non-empty word sequence `w :: ps`. -/
def lastWord (w : Str) : List Str → Str
  | [] => w
  | p :: ps => lastWord p ps

/-- All words but the last of a non-empty word sequence `w :: ps`. -/
def frontWords (w : Str) : List Str → List Str
  | [] => []
  | p :: ps => w :: frontWords p ps

theorem frontWords_lastWord (w : Str) (ps : List Str) :
    frontWords w ps ++ [lastWord w ps] = w :: ps := by
  induction ps generalizing w with
  | nil => rfl
  | cons p ps ih => simp [frontWords, lastWord, ih]

theorem splitLoop_params_run (ps : List Str) :
    ∀ (w : Str) (acc : List Str) (rest : Str),
    splitLoop .unquoted w acc (paramsStr ps ++ rest) =
      splitLoop .unquoted (lastWord w ps) (acc ++ frontWords w ps) rest := by
  induction ps with
  | nil => intro w acc rest; simp [paramsStr, lastWord, frontWords]
  | cons p ps ih =>
    intro w acc rest
    simp only [paramsStr, List.cons_append, List.append_assoc]
    rw [splitLoop_sep, splitLoop_word, ih]
    simp [lastWord, frontWords]

theorem splitWords_lineBody (n : Str) (ps : List Str) :
    splitWords (quoteWord n ++ paramsStr ps) = some (n :: ps) := by
  have h : quoteWord n ++ paramsStr ps = quoteWord n ++ (paramsStr ps ++ []) := by simp
  rw [splitWords, h, splitLoop_word, splitLoop_params_run, splitLoop_unquoted_nil]
  simp [frontWords_lastWord]

theorem splitWords_openLine (n : Str) (ps : List Str) :
    splitWords ((quoteWord n ++ paramsStr ps) ++ [' ', '{']) =
      some ((n :: ps) ++ [obraceWord]) := by
  rw [splitWords, List.append_assoc, splitLoop_word]
  have h : ([' ', '{'] : Str) = (' ' :: ['{']) ++ [] := by simp
  rw [show paramsStr ps ++ [' ', '{'] = paramsStr ps ++ (' ' :: ['{']) from rfl]
  rw [splitLoop_params_run, splitLoop_sep]
  simp only [splitLoop]
  rw [if_neg (by decide), if_neg (by decide), if_neg (by decide), if_neg (by decide),
    if_neg (by decide)]
  simp only [splitLoop, List.nil_append]
  rw [frontWords_lastWord]
  simp [obraceWord]

theorem splitWords_closeLine : splitWords ['}'] = some [['}']] := by decide

theorem quoteWord_ne_nil (w : Str) : quoteWord w ≠ [] := by
  by_cases h0 : w = []
  · subst h0; decide
  · by_cases h1 : w.any (fun c => !allowedChar c) <;> simp [quoteWord, h0, h1]

theorem mem_escSQ {c : Char} {w : Str} (h : c ∈ escSQ w) : c ∈ w ∨ c = cSQ ∨ c = cBS := by
  induction w with
  | nil => simp [escSQ] at h
  | cons d ds ih =>
    by_cases hd : d = cSQ
    · subst hd
      simp only [escSQ, if_pos rfl] at h
      rcases List.mem_cons.mp h with h | h
      · exact Or.inr (Or.inl h)
      · rcases List.mem_cons.mp h with h | h
        · exact Or.inr (Or.inr h)
        · rcases List.mem_cons.mp h with h | h
          · exact Or.inr (Or.inl h)
          · rcases List.mem_cons.mp h with h | h
            · exact Or.inr (Or.inl h)
            · rcases ih h with h2 | h2 | h2
              · exact Or.inl (List.mem_cons_of_mem _ h2)
              · exact Or.inr (Or.inl h2)
              · exact Or.inr (Or.inr h2)
    · simp only [escSQ, if_neg hd, List.mem_cons] at h
      rcases h with h | h
      · exact Or.inl (by simp [h])
      · rcases ih h with h2 | h2 | h2
        · exact Or.inl (List.mem_cons_of_mem _ h2)
        · exact Or.inr (Or.inl h2)
        · exact Or.inr (Or.inr h2)

theorem mem_quoteWord {c : Char} {w : Str} (h : c ∈ quoteWord w) :
    c ∈ w ∨ c = cSQ ∨ c = cBS := by
  by_cases h0 : w = []
  · subst h0
    have h2 : c = cSQ := by
      have h3 : c ∈ [cSQ, cSQ] := by simpa [quoteWord] using h
      simpa using h3
    exact Or.inr (Or.inl h2)
  · by_cases h1 : w.any (fun c => !allowedChar c)
    · simp only [quoteWord, if_neg h0, if_pos h1] at h
      rcases List.mem_cons.mp h with h | h
      · exact Or.inr (Or.inl h)
      · rcases List.mem_append.mp h with h | h
        · exact mem_escSQ h
        · exact Or.inr (Or.inl (by simpa using h))
    · simp only [quoteWord, if_neg h0, if_neg h1] at h
      exact Or.inl h

theorem mem_of_getLast {l : Str} {c : Char} (h : l.getLast? = some c) : c ∈ l := by
  induction l with
  | nil => simp at h
  | cons d ds ih =>
    cases hd : ds with
    | nil => subst hd; simp at h; simp [h]
    | cons e es =>
      subst hd
      rw [List.getLast?_cons_cons] at h
      exact List.mem_cons_of_mem _ (ih h)

theorem quoteWord_last {w : Str} {c : Char} (h : (quoteWord w).getLast? = some c) :
    c = cSQ ∨ allowedChar c = true := by
  by_cases h0 : w = []
  · subst h0
    left
    have h2 : cSQ = c := by simpa [quoteWord] using h
    exact h2.symm
  · by_cases h1 : w.any (fun c => !allowedChar c)
    · left
      simp only [quoteWord, if_neg h0, if_pos h1] at h
      rw [show cSQ :: (escSQ w ++ [cSQ]) = (cSQ :: escSQ w) ++ [cSQ] from rfl,
        List.getLast?_concat] at h
      have h2 : cSQ = c := by simpa using h
      exact h2.symm
    · right
      simp only [quoteWord, if_neg h0, if_neg h1] at h
      have hall : ∀ d ∈ w, allowedChar d = true := by
        intro d hd
        by_contra h2
        exact h1 (List.any_eq_true.mpr ⟨d, hd, by simp [h2]⟩)
      exact hall c (mem_of_getLast h)

theorem quoteWord_head {w : Str} {c : Char} (h : (quoteWord w).head? = some c) :
    c = cSQ ∨ allowedChar c = true := by
  by_cases h0 : w = []
  · subst h0
    left
    have h2 : cSQ = c := by simpa [quoteWord] using h
    exact h2.symm
  · by_cases h1 : w.any (fun d => !allowedChar d)
    · left
      simp only [quoteWord, if_neg h0, if_pos h1] at h
      have h2 : cSQ = c := by simpa using h
      exact h2.symm
    · right
      simp only [quoteWord, if_neg h0, if_neg h1] at h
      have hall : ∀ d ∈ w, allowedChar d = true := by
        intro d hd
        by_contra h2
        exact h1 (List.any_eq_true.mpr ⟨d, hd, by simp [h2]⟩)
      obtain ⟨d, ds, rfl⟩ := List.exists_cons_of_ne_nil h0
      simp only [List.head?_cons, Option.some.injEq] at h
      subst h
      exact hall _ (List.mem_cons_self _ _)

theorem wordEnd_not_ws {c : Char} (h : c = cSQ ∨ allowedChar c = true) :
    isWS c = false := by
  rcases h with h | h
  · subst h; decide
  · exact allowed_not_ws h

theorem wordEnd_ne_close {c : Char} (h : c = cSQ ∨ allowedChar c = true) : c ≠ '}' := by
  rcases h with h | h
  · subst h; decide
  · exact toNat_ne_imp_ne (by
      have h2 := allowed_arith h
      have e : Char.toNat '}' = 125 := by decide
      omega)

theorem wordEnd_ne_open {c : Char} (h : c = cSQ ∨ allowedChar c = true) : c ≠ '{' := by
  rcases h with h | h
  · subst h; decide
  · exact toNat_ne_imp_ne (by
      have h2 := allowed_arith h
      have e : Char.toNat '{' = 123 := by decide
      omega)

theorem lineBody_getLast (ps : List Str) :
    ∀ n : Str, ∃ w, (quoteWord n ++ paramsStr ps).getLast? = (quoteWord w).getLast? := by
  induction ps with
  | nil => intro n; exact ⟨n, by simp [paramsStr]⟩
  | cons p ps ih =>
    intro n
    obtain ⟨w, hw⟩ := ih p
    refine ⟨w, ?_⟩
    simp only [paramsStr]
    rw [show quoteWord n ++ ((' ' :: quoteWord p) ++ paramsStr ps) =
      (quoteWord n ++ [' ']) ++ (quoteWord p ++ paramsStr ps) by simp]
    rw [List.getLast?_append_of_ne_nil, hw]
    intro h2
    exact quoteWord_ne_nil p (List.append_eq_nil.mp h2).1

theorem lineBody_head (n : Str) (ps : List Str) :
    ∃ c, (quoteWord n ++ paramsStr ps).head? = some c ∧ (c = cSQ ∨ allowedChar c = true) := by
  obtain ⟨c, cs, he⟩ := List.exists_cons_of_ne_nil (quoteWord_ne_nil n)
  refine ⟨c, ?_, ?_⟩
  · rw [he]; simp
  · exact quoteWord_head (by rw [he]; simp)

theorem dropWhile_tabs (ind : Nat) (body : Str) :
    List.dropWhile isWS (tabs ind ++ body) = List.dropWhile isWS body := by
  induction ind with
  | zero => simp [tabs]
  | succ k ih =>
    simp only [tabs, List.cons_append, List.dropWhile_cons]
    rw [if_pos (by decide)]
    exact ih

theorem dropWhile_head_not {l : Str} (h : ∀ c, l.head? = some c → isWS c = false) :
    List.dropWhile isWS l = l := by
  cases l with
  | nil => rfl
  | cons c cs =>
    rw [List.dropWhile_cons, if_neg]
    simp [h c rfl]

theorem trim_indented (ind : Nat) (body : Str)
    (h1 : ∀ c, body.head? = some c → isWS c = false)
    (h2 : ∀ c, body.getLast? = some c → isWS c = false) :
    trim (tabs ind ++ body) = body := by
  rw [trim, dropWhile_tabs, dropWhile_head_not h1, dropWhile_head_not, List.reverse_reverse]
  intro c hc
  rw [List.head?_reverse] at hc
  exact h2 c hc

theorem trim_nil : trim [] = [] := rfl

/-- Text assembled from a list of newline-terminated lines. -/
def joinNL : List Str → Str
  | [] => []
  | l :: ls => l ++ '\n' :: joinNL ls

theorem toLines_line {l : Str} (h : '\n' ∉ l) (rest : Str) :
    toLines (l ++ '\n' :: rest) = l :: toLines rest := by
  induction l with
  | nil => simp [toLines]
  | cons c cs ih =>
    have hc : ¬ c = '\n' := fun h2 => h (by simp [h2])
    have hcs : '\n' ∉ cs := fun h2 => h (List.mem_cons_of_mem _ h2)
    simp only [List.cons_append, toLines, if_neg hc, List.append_eq]
    rw [ih hcs]

theorem toLines_joinNL {ls : List Str} (h : ∀ l ∈ ls, '\n' ∉ l) :
    toLines (joinNL ls) = ls := by
  induction ls with
  | nil => rfl
  | cons l ls ih =>
    simp only [joinNL]
    rw [toLines_line (h l (List.mem_cons_self l ls)), ih]
    intro x hx
    exact h x (List.mem_cons_of_mem _ hx)

theorem ltStr_irrefl (a : Str) : ltStr a a = false := by
  induction a with
  | nil => rfl
  | cons c cs ih => simp [ltStr, ih]

theorem ltStr_asymm {a b : Str} (h : ltStr a b = true) : ltStr b a = false := by
  induction a generalizing b with
  | nil =>
    cases b with
    | nil => simp [ltStr] at h
    | cons d ds => simp [ltStr]
  | cons c cs ih =>
    cases b with
    | nil => simp [ltStr] at h
    | cons d ds =>
      simp only [ltStr] at h ⊢
      by_cases h1 : c.toNat < d.toNat
      · rw [if_neg (by omega), if_pos h1]
      · rw [if_neg h1] at h
        by_cases h2 : d.toNat < c.toNat
        · rw [if_pos h2] at h
          exact absurd h (by simp)
        · rw [if_neg h2] at h
          rw [if_neg h2, if_neg h1]
          exact ih h

theorem ltStr_ne {a b : Str} (h : ltStr a b = true) : a ≠ b := by
  intro h2
  subst h2
  rw [ltStr_irrefl] at h
  exact Bool.false_ne_true h

theorem ltStr_trans {a b c : Str} (h1 : ltStr a b = true) (h2 : ltStr b c = true) :
    ltStr a c = true := by
  induction a generalizing b c with
  | nil =>
    cases b with
    | nil => simp [ltStr] at h1
    | cons y ys =>
      cases c with
      | nil => simp [ltStr] at h2
      | cons z zs => simp [ltStr]
  | cons x xs ih =>
    cases b with
    | nil => simp [ltStr] at h1
    | cons y ys =>
      cases c with
      | nil => simp [ltStr] at h2
      | cons z zs =>
        simp only [ltStr] at h1 h2 ⊢
        by_cases hxy : x.toNat < y.toNat
        · by_cases hyz : y.toNat < z.toNat
          · rw [if_pos (by omega)]
          · rw [if_neg hyz] at h2
            by_cases hzy : z.toNat < y.toNat
            · rw [if_pos hzy] at h2
              exact absurd h2 (by simp)
            · rw [if_pos (by omega)]
        · rw [if_neg hxy] at h1
          by_cases hyx : y.toNat < x.toNat
          · rw [if_pos hyx] at h1
            exact absurd h1 (by simp)
          · rw [if_neg hyx] at h1
            by_cases hyz : y.toNat < z.toNat
            · rw [if_pos (by omega)]
            · rw [if_neg hyz] at h2
              by_cases hzy : z.toNat < y.toNat
              · rw [if_pos hzy] at h2
                exact absurd h2 (by simp)
              · rw [if_neg hzy] at h2
                rw [if_neg (by omega), if_neg (by omega)]
                exact ih h1 h2

theorem strictSorted_tail {x : Str} {l : List Str} (h : strictSorted (x :: l) = true) :
    strictSorted l = true := by
  cases l with
  | nil => rfl
  | cons y ys =>
    have h2 : ltStr x y = true ∧ strictSorted (y :: ys) = true := by
      simpa [strictSorted] using h
    exact h2.2

theorem strictSorted_head_lt {x : Str} {l : List Str} (h : strictSorted (x :: l) = true) :
    ∀ y ∈ l, ltStr x y = true := by
  induction l generalizing x with
  | nil => intro y hy; simp at hy
  | cons z zs ih =>
    intro y hy
    have h2 : ltStr x z = true ∧ strictSorted (z :: zs) = true := by
      simpa [strictSorted] using h
    rcases List.mem_cons.mp hy with hy | hy
    · subst hy; exact h2.1
    · exact ltStr_trans h2.1 (ih h2.2 y hy)

theorem strictSorted_mem_lt {ks₀ ks₁ : List Str} {k k' : Str}
    (h : strictSorted (ks₀ ++ k :: ks₁) = true) (hm : k' ∈ ks₀) : ltStr k' k = true := by
  induction ks₀ generalizing k' with
  | nil => simp at hm
  | cons a t ih =>
    rcases List.mem_cons.mp hm with hm | hm
    · subst hm
      exact strictSorted_head_lt (by simpa using h) k (by simp)
    · exact ih (strictSorted_tail (by simpa using h)) hm

theorem allDistinct_mem_ne {ks₀ ks₁ : List Str} {k k' : Str}
    (h : allDistinct (ks₀ ++ k :: ks₁) = true) (hm : k' ∈ ks₀) : k' ≠ k := by
  induction ks₀ generalizing k' with
  | nil => simp at hm
  | cons a t ih =>
    have h2 : a ∉ t ++ k :: ks₁ ∧ allDistinct (t ++ k :: ks₁) = true := by
      simpa [allDistinct] using h
    rcases List.mem_cons.mp hm with hm | hm
    · subst hm
      intro he
      subst he
      exact h2.1 (by simp)
    · exact ih h2.2 hm

/-- Freshness of key `k` relative to an earlier key `k'` of the map, by
mode: distinct always, and strictly larger in the sorted mode. -/
def keyFresh (mode : Mode) (k' k : Str) : Prop :=
  k' ≠ k ∧ (mode = .sorted → ltStr k' k = true)

theorem ordKeys_fresh {mode : Mode} {ks₀ ks₁ : List Str} {k : Str}
    (h : keysOrdered mode (ks₀ ++ k :: ks₁) = true) :
    ∀ k' ∈ ks₀, keyFresh mode k' k := by
  intro k' hm
  cases mode with
  | sorted =>
    have h2 := strictSorted_mem_lt (by simpa [keysOrdered] using h) hm
    exact ⟨ltStr_ne h2, fun _ => h2⟩
  | preserveOrder =>
    exact ⟨allDistinct_mem_ne (by simpa [keysOrdered] using h) hm, fun h2 => by cases h2⟩

theorem addEntrySorted_fresh {es : List (Str × List Directive)} {k : Str}
    (h : ∀ k' ∈ keysOf es, ltStr k' k = true) (dir : Directive) :
    addEntrySorted es k dir = es ++ [(k, [dir])] := by
  induction es with
  | nil => rfl
  | cons e rest ih =>
    obtain ⟨k', ds'⟩ := e
    have hk : ltStr k' k = true := h k' (by simp [keysOf])
    simp only [addEntrySorted]
    rw [if_neg (fun he => ltStr_ne hk he.symm), if_neg (by simp [ltStr_asymm hk])]
    rw [ih (fun x hx => h x (by simp [keysOf] at hx ⊢; exact Or.inr hx))]
    simp

theorem addEntryPres_fresh {es : List (Str × List Directive)} {k : Str}
    (h : ∀ k' ∈ keysOf es, k' ≠ k) (dir : Directive) :
    addEntryPres es k dir = es ++ [(k, [dir])] := by
  induction es with
  | nil => rfl
  | cons e rest ih =>
    obtain ⟨k', ds'⟩ := e
    have hk : k' ≠ k := h k' (by simp [keysOf])
    simp only [addEntryPres]
    rw [if_neg (fun he => hk he.symm)]
    rw [ih (fun x hx => h x (by simp [keysOf] at hx ⊢; exact Or.inr hx))]
    simp

theorem addDirective_fresh {mode : Mode} {es : List (Str × List Directive)} {k : Str}
    (h : ∀ k' ∈ keysOf es, keyFresh mode k' k) (dir : Directive) :
    Scfg.addDirective mode (.mk es) k dir = .mk (es ++ [(k, [dir])]) := by
  cases mode with
  | sorted =>
    simp only [Scfg.addDirective, Scfg.directives]
    rw [addEntrySorted_fresh (fun k' hk => (h k' hk).2 rfl)]
  | preserveOrder =>
    simp only [Scfg.addDirective, Scfg.directives]
    rw [addEntryPres_fresh (fun k' hk => (h k' hk).1)]

theorem addEntrySorted_last {es : List (Str × List Directive)} {k : Str}
    (h : ∀ k' ∈ keysOf es, ltStr k' k = true) (ds : List Directive) (dir : Directive) :
    addEntrySorted (es ++ [(k, ds)]) k dir = es ++ [(k, ds ++ [dir])] := by
  induction es with
  | nil => simp [addEntrySorted]
  | cons e rest ih =>
    obtain ⟨k', ds'⟩ := e
    have hk : ltStr k' k = true := h k' (by simp [keysOf])
    simp only [List.cons_append, addEntrySorted, List.append_eq]
    rw [if_neg (fun he => ltStr_ne hk he.symm), if_neg (by simp [ltStr_asymm hk])]
    rw [ih (fun x hx => h x (by simp [keysOf] at hx ⊢; exact Or.inr hx))]

theorem addEntryPres_last {es : List (Str × List Directive)} {k : Str}
    (h : ∀ k' ∈ keysOf es, k' ≠ k) (ds : List Directive) (dir : Directive) :
    addEntryPres (es ++ [(k, ds)]) k dir = es ++ [(k, ds ++ [dir])] := by
  induction es with
  | nil => simp [addEntryPres]
  | cons e rest ih =>
    obtain ⟨k', ds'⟩ := e
    have hk : k' ≠ k := h k' (by simp [keysOf])
    simp only [List.cons_append, addEntryPres, List.append_eq]
    rw [if_neg (fun he => hk he.symm)]
    rw [ih (fun x hx => h x (by simp [keysOf] at hx ⊢; exact Or.inr hx))]

theorem addDirective_last {mode : Mode} {es : List (Str × List Directive)} {k : Str}
    (h : ∀ k' ∈ keysOf es, keyFresh mode k' k) (ds : List Directive) (dir : Directive) :
    Scfg.addDirective mode (.mk (es ++ [(k, ds)])) k dir = .mk (es ++ [(k, ds ++ [dir])]) := by
  cases mode with
  | sorted =>
    simp only [Scfg.addDirective, Scfg.directives]
    rw [addEntrySorted_last (fun k' hk => (h k' hk).2 rfl)]
  | preserveOrder =>
    simp only [Scfg.addDirective, Scfg.directives]
    rw [addEntryPres_last (fun k' hk => (h k' hk).1)]

/-- Flattening of an entry list into (name, directive) pairs in iteration
order, repeating the name once per directive of its bucket. -/
def flattenEntries : List (Str × List Directive) → List (Str × Directive)
  | [] => []
  | (n, ds) :: rest => ds.map (fun d => (n, d)) ++ flattenEntries rest

/-- Sequence of `add_directive` insertions. -/
def addAllDirs (mode : Mode) : Scfg → List (Str × Directive) → Scfg
  | block, [] => block
  | block, (n, dir) :: rest => addAllDirs mode (block.addDirective mode n dir) rest

theorem keysOf_append (a b : List (Str × List Directive)) :
    keysOf (a ++ b) = keysOf a ++ keysOf b := by
  simp [keysOf]

theorem addAll_bucket {mode : Mode} {es₀ : List (Str × List Directive)} {k : Str}
    (h : ∀ k' ∈ keysOf es₀, keyFresh mode k' k) :
    ∀ (ds : List Directive) (ds₀ : List Directive) (items : List (Str × Directive)),
    addAllDirs mode (.mk (es₀ ++ [(k, ds₀)])) (ds.map (fun d => (k, d)) ++ items) =
      addAllDirs mode (.mk (es₀ ++ [(k, ds₀ ++ ds)])) items := by
  intro ds
  induction ds with
  | nil => intro ds₀ items; simp
  | cons d ds ih =>
    intro ds₀ items
    simp only [List.map_cons, List.cons_append, addAllDirs, List.append_eq]
    rw [addDirective_last h, ih]
    simp

/-- Top-level bucket non-emptiness of an entry list. -/
def bucketsNE (es : List (Str × List Directive)) : Bool :=
  es.all (fun e => !e.2.isEmpty)

theorem addAll_rebuild {mode : Mode} :
    ∀ (es₁ es₀ : List (Str × List Directive)),
    keysOrdered mode (keysOf (es₀ ++ es₁)) = true → bucketsNE es₁ = true →
    addAllDirs mode (.mk es₀) (flattenEntries es₁) = .mk (es₀ ++ es₁) := by
  intro es₁
  induction es₁ with
  | nil => intro es₀ _ _; simp [flattenEntries, addAllDirs]
  | cons e rest ih =>
    intro es₀ hord hne
    obtain ⟨k, ds⟩ := e
    have hne2 : ¬ds = [] ∧ bucketsNE rest = true := by
      have h2 := hne
      simp only [bucketsNE, List.all_cons, Bool.and_eq_true] at h2
      refine ⟨?_, by simpa [bucketsNE] using h2.2⟩
      intro h3
      subst h3
      simp at h2
    have hds : ds ≠ [] := hne2.1
    obtain ⟨d, ds', rfl⟩ := List.exists_cons_of_ne_nil hds
    have hkeys : keysOf (es₀ ++ (k, d :: ds') :: rest) =
        keysOf es₀ ++ k :: keysOf rest := by
      rw [keysOf_append]; simp [keysOf]
    rw [hkeys] at hord
    have hfresh : ∀ k' ∈ keysOf es₀, keyFresh mode k' k := ordKeys_fresh hord
    simp only [flattenEntries, List.map_cons, List.cons_append, addAllDirs, List.append_eq]
    rw [addDirective_fresh hfresh]
    rw [addAll_bucket hfresh ds' [d] (flattenEntries rest)]
    have hord2 : keysOrdered mode (keysOf ((es₀ ++ [(k, d :: ds')]) ++ rest)) = true := by
      simpa [keysOf] using hord
    have := ih (es₀ ++ [(k, d :: ds')]) hord2 hne2.2
    simp only [List.singleton_append]
    rw [this]
    simp

mutual

/-- Serialized output of `writeEntries`, as a list of lines. -/
def entriesLines (ind : Nat) (pre : Bool) : List (Str × List Directive) → List Str
  | [] => []
  | (name, ds) :: rest => bucketLines ind pre name ds rest
termination_by es => sizeOf es
decreasing_by all_goals simp_wf <;> omega

/-- Serialized output of `writeBucket`, as a list of lines.  `pre` records
whether a blank separator line is pending before the next directive. -/
def bucketLines (ind : Nat) (pre : Bool) (name : Str) :
    List Directive → List (Str × List Directive) → List Str
  | [], rest => entriesLines ind pre rest
  | Directive.mk ps none :: ds, rest =>
    (if pre then [([] : Str)] else []) ++
      (tabs ind ++ quoteWord name ++ paramsStr ps) :: bucketLines ind false name ds rest
  | Directive.mk ps (some child) :: ds, rest =>
    (if pre then [([] : Str)] else []) ++
      ((tabs ind ++ quoteWord name ++ paramsStr ps) ++ [' ', '{']) ::
      (docLines (ind + 1) child ++ (tabs ind ++ ['}']) :: bucketLines ind true name ds rest)
termination_by ds rest => sizeOf ds + sizeOf rest
decreasing_by all_goals simp_wf <;> omega

/-- Serialized output of `writeDoc`, as a list of lines. -/
def docLines (ind : Nat) : Scfg → List Str
  | .mk es => entriesLines ind false es
termination_by d => sizeOf d
decreasing_by all_goals simp_wf <;> omega

end

theorem joinNL_append (a b : List Str) : joinNL (a ++ b) = joinNL a ++ joinNL b := by
  induction a with
  | nil => rfl
  | cons l ls ih => simp [joinNL, ih]

theorem wjoin_bucket (ind : Nat) (name : Str) :
    ∀ (ds : List Directive) (rest : List (Str × List Directive)),
    (∀ dir c, dir ∈ ds → dir.child = some c →
      ∀ j, writeDoc j c = joinNL (docLines j c)) →
    (∀ pre : Bool, writeEntries ind (if pre then ['\n'] else []) rest =
      joinNL (entriesLines ind pre rest)) →
    ∀ pre : Bool, writeBucket ind (if pre then ['\n'] else []) name ds rest =
      joinNL (bucketLines ind pre name ds rest) := by
  intro ds
  induction ds with
  | nil =>
    intro rest _ hrest pre
    simp only [writeBucket, bucketLines]
    exact hrest pre
  | cons dir ds ih =>
    intro rest hchild hrest pre
    obtain ⟨ps, ch⟩ := dir
    cases ch with
    | none =>
      simp only [writeBucket, bucketLines]
      rw [joinNL_append]
      have hrec : writeBucket ind [] name ds rest =
          joinNL (bucketLines ind false name ds rest) := by
        simpa using ih rest
          (fun dir2 c h1 h2 => hchild dir2 c (List.mem_cons_of_mem _ h1) h2) hrest false
      rw [hrec]
      cases pre <;> simp [joinNL]
    | some child =>
      simp only [writeBucket, bucketLines]
      rw [joinNL_append]
      have hrec : writeBucket ind ['\n'] name ds rest =
          joinNL (bucketLines ind true name ds rest) := by
        simpa using ih rest
          (fun dir2 c h1 h2 => hchild dir2 c (List.mem_cons_of_mem _ h1) h2) hrest true
      rw [joinNL, joinNL_append, joinNL, hrec]
      have hc := hchild (Directive.mk ps (some child)) child (List.mem_cons_self _ _)
        rfl (ind + 1)
      rw [hc]
      cases pre <;> simp [joinNL]

theorem wjoin_entries (ind : Nat) :
    ∀ es : List (Str × List Directive),
    (∀ n ds dir c, (n, ds) ∈ es → dir ∈ ds → dir.child = some c →
      ∀ j, writeDoc j c = joinNL (docLines j c)) →
    ∀ pre : Bool, writeEntries ind (if pre then ['\n'] else []) es =
      joinNL (entriesLines ind pre es) := by
  intro es
  induction es with
  | nil => intro _ pre; simp [writeEntries, entriesLines, joinNL]
  | cons e rest ih =>
    intro hchild pre
    obtain ⟨name, ds⟩ := e
    simp only [writeEntries, entriesLines]
    exact wjoin_bucket ind name ds rest
      (fun dir c h1 h2 => hchild name ds dir c (List.mem_cons_self _ _) h1 h2)
      (fun pre2 => ih (fun n ds2 dir c h1 h2 =>
        hchild n ds2 dir c (List.mem_cons_of_mem _ h1) h2) pre2)
      pre

theorem writeDoc_joinNL : ∀ d : Scfg, ∀ ind, writeDoc ind d = joinNL (docLines ind d) := by
  apply scfgRecAux (P := fun d => ∀ ind, writeDoc ind d = joinNL (docLines ind d))
  intro es hchild ind
  simp only [writeDoc, docLines]
  have := wjoin_entries ind es
    (fun n ds dir c h1 h2 h3 => hchild n ds dir c h1 h2 h3) false
  simpa using this

theorem noNL_mem {w : Str} (h : noNL w = true) {c : Char} (hc : c ∈ w) : c ≠ '\n' := by
  have h2 := List.all_eq_true.mp h c hc
  simpa using h2

theorem mem_tabs {c : Char} : ∀ {ind : Nat}, c ∈ tabs ind → c = '\t' := by
  intro ind
  induction ind with
  | zero => intro h; simp [tabs] at h
  | succ k ih =>
    intro h
    rcases List.mem_cons.mp h with h | h
    · exact h
    · exact ih h

theorem mem_paramsStr {c : Char} : ∀ {ps : List Str}, c ∈ paramsStr ps →
    c = ' ' ∨ ∃ p ∈ ps, c ∈ quoteWord p := by
  intro ps
  induction ps with
  | nil => intro h; simp [paramsStr] at h
  | cons p ps ih =>
    intro h
    simp only [paramsStr, List.cons_append, List.mem_cons, List.mem_append] at h
    rcases h with h | h
    · exact Or.inl h
    · rcases h with h | h
      · exact Or.inr ⟨p, by simp, h⟩
      · rcases ih h with h2 | ⟨q, hq, hcq⟩
        · exact Or.inl h2
        · exact Or.inr ⟨q, List.mem_cons_of_mem _ hq, hcq⟩

theorem noNL_quoteWord {w : Str} (h : noNL w = true) : '\n' ∉ quoteWord w := by
  intro hmem
  rcases mem_quoteWord hmem with h2 | h2 | h2
  · exact noNL_mem h h2 rfl
  · exact absurd h2 (by decide)
  · exact absurd h2 (by decide)

theorem noNL_lineChunk {name : Str} {ps : List Str} (ind : Nat)
    (hn : noNL name = true) (hp : ps.all noNL = true) :
    '\n' ∉ tabs ind ++ quoteWord name ++ paramsStr ps := by
  intro hmem
  simp only [List.mem_append] at hmem
  rcases hmem with (h | h) | h
  · exact absurd (mem_tabs h) (by decide)
  · exact noNL_quoteWord hn h
  · rcases mem_paramsStr h with h2 | ⟨p, hp2, hcp⟩
    · exact absurd h2 (by decide)
    · exact noNL_quoteWord (List.all_eq_true.mp hp p hp2) hcp

theorem lines_noNL_bucket {mode : Mode} (ind : Nat) (name : Str) (hn : noNL name = true) :
    ∀ (ds : List Directive) (rest : List (Str × List Directive)),
    (∀ dir c, dir ∈ ds → Directive.child dir = some c → validDoc mode c = true →
      ∀ j l, l ∈ docLines j c → '\n' ∉ l) →
    validBucket mode ds = true →
    (∀ pre l, l ∈ entriesLines ind pre rest → '\n' ∉ l) →
    ∀ pre l, l ∈ bucketLines ind pre name ds rest → '\n' ∉ l := by
  intro ds
  induction ds with
  | nil =>
    intro rest _ _ hrest pre l hl
    exact hrest pre l (by simpa [bucketLines] using hl)
  | cons dir ds ih =>
    intro rest hchild hvb hrest pre l hl
    obtain ⟨ps, ch⟩ := dir
    have hvb2 : validDir mode (Directive.mk ps ch) = true ∧ validBucket mode ds = true := by
      simpa [validBucket] using hvb
    have ih2 := ih rest (fun dir2 c h1 h2 h3 =>
      hchild dir2 c (List.mem_cons_of_mem _ h1) h2 h3) hvb2.2 hrest
    cases ch with
    | none =>
      have hps : ps.all noNL = true := by simpa [validDir] using hvb2.1
      simp only [bucketLines, List.mem_append, List.mem_cons] at hl
      rcases hl with hl | hl | hl
      · have : l = [] := by
          rcases pre with _ | _ <;> simp at hl
          exact hl
        subst this
        simp
      · subst hl
        exact noNL_lineChunk ind hn hps
      · exact ih2 false l hl
    | some child =>
      have hv3 : ps.all noNL = true ∧ validDoc mode child = true := by
        simpa [validDir] using hvb2.1
      simp only [bucketLines, List.mem_append, List.mem_cons] at hl
      rcases hl with hl | hl | hl
      · have : l = [] := by
          rcases pre with _ | _ <;> simp at hl
          exact hl
        subst this
        simp
      · subst hl
        intro hmem
        simp only [List.mem_append] at hmem
        rcases hmem with ((h | h) | h) | h
        · exact absurd (mem_tabs h) (by decide)
        · exact noNL_quoteWord hn h
        · rcases mem_paramsStr h with h2 | ⟨p, hp2, hcp⟩
          · exact absurd h2 (by decide)
          · exact noNL_quoteWord (List.all_eq_true.mp hv3.1 p hp2) hcp
        · simp at h
      · rcases hl with hl | hl
        · exact hchild (Directive.mk ps (some child)) child (List.mem_cons_self _ _)
            rfl hv3.2 (ind + 1) l hl
        · rcases hl with hl | hl
          · subst hl
            intro hmem
            simp only [List.mem_append] at hmem
            rcases hmem with hmem | hmem
            · exact absurd (mem_tabs hmem) (by decide)
            · simp at hmem
          · exact ih2 true l hl

theorem lines_noNL_entries {mode : Mode} (ind : Nat) :
    ∀ es : List (Str × List Directive),
    (∀ n ds dir c, (n, ds) ∈ es → dir ∈ ds → Directive.child dir = some c →
      validDoc mode c = true → ∀ j l, l ∈ docLines j c → '\n' ∉ l) →
    validEntries mode es = true →
    ∀ pre l, l ∈ entriesLines ind pre es → '\n' ∉ l := by
  intro es
  induction es with
  | nil => intro _ _ pre l hl; simp [entriesLines] at hl
  | cons e rest ih =>
    intro hchild hve pre l hl
    obtain ⟨name, ds⟩ := e
    have hve2 : (noNL name = true ∧ ¬ds = [] ∧ validBucket mode ds = true) ∧
        validEntries mode rest = true := by
      simpa [validEntries, and_assoc] using hve
    simp only [entriesLines] at hl
    exact lines_noNL_bucket ind name hve2.1.1 ds rest
      (fun dir c h1 h2 h3 => hchild name ds dir c (List.mem_cons_self _ _) h1 h2 h3)
      hve2.1.2.2
      (fun pre2 l2 hl2 => ih (fun n ds2 dir c h1 h2 h3 h4 =>
        hchild n ds2 dir c (List.mem_cons_of_mem _ h1) h2 h3 h4) hve2.2 pre2 l2 hl2)
      pre l hl

theorem docLines_noNL {mode : Mode} :
    ∀ d : Scfg, validDoc mode d = true → ∀ ind l, l ∈ docLines ind d → '\n' ∉ l := by
  apply scfgRecAux
    (P := fun d => validDoc mode d = true → ∀ ind l, l ∈ docLines ind d → '\n' ∉ l)
  intro es hchild hv ind l hl
  have hv2 : keysOrdered mode (keysOf es) = true ∧ validEntries mode es = true := by
    simpa [validDoc] using hv
  simp only [docLines] at hl
  exact lines_noNL_entries ind es
    (fun n ds dir c h1 h2 h3 h4 => hchild n ds dir c h1 h2 h3 h4) hv2.2 false l hl

theorem lineBody_last_facts {name : Str} {ps : List Str} {c : Char}
    (h : (quoteWord name ++ paramsStr ps).getLast? = some c) :
    c = cSQ ∨ allowedChar c = true := by
  obtain ⟨w, hw⟩ := lineBody_getLast ps name
  rw [hw] at h
  exact quoteWord_last h

theorem lineBody_ne_nil (name : Str) (ps : List Str) :
    quoteWord name ++ paramsStr ps ≠ [] := by
  intro h
  exact quoteWord_ne_nil name (List.append_eq_nil.mp h).1

theorem trim_flat (ind : Nat) (name : Str) (ps : List Str) :
    trim (tabs ind ++ quoteWord name ++ paramsStr ps) = quoteWord name ++ paramsStr ps := by
  rw [List.append_assoc]
  apply trim_indented
  · intro c hc
    obtain ⟨c0, hc0, hf⟩ := lineBody_head name ps
    rw [hc0] at hc
    exact Option.some.inj hc ▸ wordEnd_not_ws hf
  · intro c hc
    exact wordEnd_not_ws (lineBody_last_facts hc)

theorem trim_open (ind : Nat) (name : Str) (ps : List Str) :
    trim ((tabs ind ++ quoteWord name ++ paramsStr ps) ++ [' ', '{']) =
      (quoteWord name ++ paramsStr ps) ++ [' ', '{'] := by
  rw [show (tabs ind ++ quoteWord name ++ paramsStr ps) ++ [' ', '{'] =
    tabs ind ++ ((quoteWord name ++ paramsStr ps) ++ [' ', '{']) by simp]
  apply trim_indented
  · intro c hc
    obtain ⟨c0, hc0, hf⟩ := lineBody_head name ps
    obtain ⟨t, ht⟩ := List.head?_eq_some_iff.mp hc0
    rw [ht] at hc
    simp only [List.cons_append, List.head?_cons, Option.some.injEq] at hc
    exact hc ▸ wordEnd_not_ws hf
  · intro c hc
    rw [List.getLast?_append_of_ne_nil _ (show ([' ', '{'] : Str) ≠ [] by simp)] at hc
    have h3 : '{' = c := by simpa using hc
    subst h3
    decide

theorem trim_close (ind : Nat) : trim (tabs ind ++ ['}']) = ['}'] := by
  apply trim_indented
  · intro c hc
    have h3 : '}' = c := by simpa using hc
    subst h3
    decide
  · intro c hc
    have h3 : '}' = c := by simpa using hc
    subst h3
    decide

theorem flat_hnc (name : Str) (ps : List Str) :
    ¬(ps = [] ∧ (quoteWord name ++ paramsStr ps).getLast? = some '}') := by
  rintro ⟨-, h⟩
  exact wordEnd_ne_close (lineBody_last_facts h) rfl

theorem flat_hno (name : Str) (ps : List Str) :
    ¬((name :: ps).getLast? = some obraceWord ∧
      (quoteWord name ++ paramsStr ps).getLast? = some '{') := by
  rintro ⟨-, h⟩
  exact wordEnd_ne_open (lineBody_last_facts h) rfl

theorem open_hnc (name : Str) (ps : List Str) :
    ¬(ps ++ [obraceWord] = [] ∧
      ((quoteWord name ++ paramsStr ps) ++ [' ', '{']).getLast? = some '}') := by
  rintro ⟨h, -⟩
  simp at h

theorem open_hlast (name : Str) (ps : List Str) :
    (name :: (ps ++ [obraceWord])).getLast? = some obraceWord := by
  rw [show name :: (ps ++ [obraceWord]) = (name :: ps) ++ [obraceWord] by simp]
  exact List.getLast?_concat _

theorem open_hb (name : Str) (ps : List Str) :
    ((quoteWord name ++ paramsStr ps) ++ [' ', '{']).getLast? = some '{' := by
  rw [List.getLast?_append_of_ne_nil _ (show ([' ', '{'] : Str) ≠ [] by simp)]
  rfl

theorem open_nameAndParams (name : Str) (ps : List Str) :
    nameAndParams ((name :: (ps ++ [obraceWord])).dropLast) = (name, ps) := by
  rw [show name :: (ps ++ [obraceWord]) = (name :: ps) ++ [obraceWord] by simp]
  rw [List.dropLast_concat]
  rfl

theorem scfg_mk_directives (d : Scfg) : Scfg.mk d.directives = d := by
  cases d
  rfl

theorem readBlock_open_ok (mode : Mode) (block : Scfg) (l : Str) (rest : List Str)
    (n : Nat) (w : Str) (ws : List Str) (child : Scfg) (rem : List Str) (n2 : Nat)
    (h : splitWords (trim l) = some (w :: ws))
    (hnc : ¬(ws = [] ∧ (trim l).getLast? = some '}'))
    (hlast : (w :: ws).getLast? = some obraceWord)
    (hb : (trim l).getLast? = some '{')
    (hrec : readBlock mode Scfg.empty rest (n + 1) = .ok (child, true, rem, n2)) :
    readBlock mode block (l :: rest) n =
      readBlock mode
        (block.addDirective mode (nameAndParams ((w :: ws).dropLast)).1
          (Directive.mk (nameAndParams ((w :: ws).dropLast)).2 (some child)))
        rem n2 := by
  rw [readBlock_open mode block l rest n w ws h hnc hlast hb, hrec]

theorem readBlock_open_eof (mode : Mode) (block : Scfg) (l : Str) (rest : List Str)
    (n : Nat) (w : Str) (ws : List Str) (child : Scfg) (rem : List Str) (n2 : Nat)
    (h : splitWords (trim l) = some (w :: ws))
    (hnc : ¬(ws = [] ∧ (trim l).getLast? = some '}'))
    (hlast : (w :: ws).getLast? = some obraceWord)
    (hb : (trim l).getLast? = some '{')
    (hrec : readBlock mode Scfg.empty rest (n + 1) = .ok (child, false, rem, n2)) :
    readBlock mode block (l :: rest) n = .error ⟨.ioUnexpectedEof, n2⟩ := by
  rw [readBlock_open mode block l rest n w ws h hnc hlast hb, hrec]

theorem readBlock_open_err (mode : Mode) (block : Scfg) (l : Str) (rest : List Str)
    (n : Nat) (w : Str) (ws : List Str) (e : PError)
    (h : splitWords (trim l) = some (w :: ws))
    (hnc : ¬(ws = [] ∧ (trim l).getLast? = some '}'))
    (hlast : (w :: ws).getLast? = some obraceWord)
    (hb : (trim l).getLast? = some '{')
    (hrec : readBlock mode Scfg.empty rest (n + 1) = .error e) :
    readBlock mode block (l :: rest) n = .error e := by
  rw [readBlock_open mode block l rest n w ws h hnc hlast hb, hrec]

theorem valid_parts {mode : Mode} {d : Scfg} (h : validDoc mode d = true) :
    keysOrdered mode (keysOf d.directives) = true ∧
      validEntries mode d.directives = true := by
  cases d with
  | mk es => simpa [validDoc, Scfg.directives] using h

theorem validEntries_bucketsNE {mode : Mode} :
    ∀ {es : List (Str × List Directive)}, validEntries mode es = true →
    bucketsNE es = true := by
  intro es
  induction es with
  | nil => intro _; rfl
  | cons e rest ih =>
    intro h
    obtain ⟨n, ds⟩ := e
    have h2 : (noNL n = true ∧ ¬ds = [] ∧ validBucket mode ds = true) ∧
        validEntries mode rest = true := by
      simpa [validEntries, and_assoc] using h
    simp only [bucketsNE, List.all_cons, Bool.and_eq_true]
    exact ⟨by simpa using h2.1.2.1, by simpa [bucketsNE] using ih h2.2⟩

theorem rebuild_empty {mode : Mode} {c : Scfg} (hv : validDoc mode c = true) :
    addAllDirs mode Scfg.empty (flattenEntries c.directives) = c := by
  have h2 := valid_parts hv
  have h3 := addAll_rebuild c.directives [] (by simpa using h2.1)
    (validEntries_bucketsNE h2.2)
  rw [show Scfg.empty = Scfg.mk [] from rfl, h3]
  simpa using scfg_mk_directives c

theorem parse_bucket {mode : Mode} (ind : Nat) (name : Str) :
    ∀ (ds : List Directive) (rest : List (Str × List Directive)),
    (∀ dir c, dir ∈ ds → Directive.child dir = some c → validDoc mode c = true →
      ∀ j (block : Scfg) (tail : List Str) (n : Nat),
        readBlock mode block (docLines j c ++ tail) n =
          readBlock mode (addAllDirs mode block (flattenEntries (Scfg.directives c)))
            tail (n + (docLines j c).length)) →
    validBucket mode ds = true →
    (∀ (pre : Bool) (block : Scfg) (tail : List Str) (n : Nat),
      readBlock mode block (entriesLines ind pre rest ++ tail) n =
        readBlock mode (addAllDirs mode block (flattenEntries rest)) tail
          (n + (entriesLines ind pre rest).length)) →
    ∀ (pre : Bool) (block : Scfg) (tail : List Str) (n : Nat),
      readBlock mode block (bucketLines ind pre name ds rest ++ tail) n =
        readBlock mode
          (addAllDirs mode block (ds.map (fun d => (name, d)) ++ flattenEntries rest))
          tail (n + (bucketLines ind pre name ds rest).length) := by
  intro ds
  induction ds with
  | nil =>
    intro rest _ _ hrest pre block tail n
    simp only [bucketLines, List.map_nil, List.nil_append]
    exact hrest pre block tail n
  | cons dir ds ih =>
    intro rest hchild hvb hrest pre block tail n
    obtain ⟨ps, ch⟩ := dir
    have hvb2 : validDir mode (Directive.mk ps ch) = true ∧ validBucket mode ds = true := by
      simpa [validBucket] using hvb
    have ih2 := ih rest (fun dir2 c h1 h2 => hchild dir2 c (List.mem_cons_of_mem _ h1) h2)
      hvb2.2 hrest
    cases ch with
    | none =>
      have key : ∀ n' : Nat,
          readBlock mode block ((tabs ind ++ quoteWord name ++ paramsStr ps) ::
            (bucketLines ind false name ds rest ++ tail)) n' =
          readBlock mode
            (addAllDirs mode block
              ((Directive.mk ps none :: ds).map (fun d => (name, d)) ++ flattenEntries rest))
            tail (n' + 1 + (bucketLines ind false name ds rest).length) := by
        intro n'
        rw [readBlock_flat mode block _ _ n' name ps
          (by rw [trim_flat]; exact splitWords_lineBody name ps)
          (by rw [trim_flat]; exact flat_hnc name ps)
          (by rw [trim_flat]; exact flat_hno name ps)]
        rw [ih2 false (block.addDirective mode name (Directive.mk ps none)) tail (n' + 1)]
        simp only [List.map_cons, List.cons_append, addAllDirs, List.append_eq]
      cases pre with
      | false =>
        simp only [bucketLines, Bool.false_eq_true, if_false, List.nil_append,
          List.cons_append]
        rw [key n]
        congr 1
        simp only [bucketLines, Bool.false_eq_true, if_false, List.nil_append,
          List.length_cons]
        omega
      | true =>
        simp only [bucketLines, eq_self_iff_true, if_true, List.singleton_append,
          List.cons_append, List.nil_append]
        rw [readBlock_skip mode block [] _ n rfl, key (n + 1)]
        congr 1
        simp only [bucketLines, eq_self_iff_true, if_true, List.singleton_append,
          List.length_cons, List.nil_append]
        omega
    | some c =>
      have hv3 : ps.all noNL = true ∧ validDoc mode c = true := by
        simpa [validDir] using hvb2.1
      have hcp := hchild (Directive.mk ps (some c)) c (List.mem_cons_self _ _) rfl hv3.2
      have key : ∀ n' : Nat,
          readBlock mode block (((tabs ind ++ quoteWord name ++ paramsStr ps) ++ [' ', '{']) ::
            (docLines (ind + 1) c ++ (tabs ind ++ ['}']) ::
              bucketLines ind true name ds rest ++ tail)) n' =
          readBlock mode
            (addAllDirs mode block
              ((Directive.mk ps (some c) :: ds).map (fun d => (name, d)) ++
                flattenEntries rest))
            tail (n' + 1 + (docLines (ind + 1) c).length + 1 +
              (bucketLines ind true name ds rest).length) := by
        intro n'
        have hrec : readBlock mode Scfg.empty
            (docLines (ind + 1) c ++ ((tabs ind ++ ['}']) ::
              (bucketLines ind true name ds rest ++ tail))) (n' + 1) =
            .ok (c, true, bucketLines ind true name ds rest ++ tail,
              n' + 1 + (docLines (ind + 1) c).length + 1) := by
          rw [hcp (ind + 1) Scfg.empty _ (n' + 1)]
          rw [rebuild_empty hv3.2]
          exact readBlock_close mode c _ _ _ ['}']
            (by rw [trim_close]; exact splitWords_closeLine)
            (by rw [trim_close]; rfl)
        rw [readBlock_open_ok mode block _ _ n' name (ps ++ [obraceWord]) c
          (bucketLines ind true name ds rest ++ tail)
          (n' + 1 + (docLines (ind + 1) c).length + 1)
          (by rw [trim_open]; simpa using splitWords_openLine name ps)
          (by rw [trim_open]; exact open_hnc name ps)
          (open_hlast name ps)
          (by rw [trim_open]; exact open_hb name ps)
          (by simpa using hrec)]
        rw [open_nameAndParams]
        rw [ih2 true _ tail _]
        simp only [List.map_cons, List.cons_append, addAllDirs, List.append_eq]
      cases pre with
      | false =>
        simp only [bucketLines, Bool.false_eq_true, if_false, List.nil_append,
          List.cons_append]
        rw [key n]
        congr 1
        simp only [bucketLines, Bool.false_eq_true, if_false, List.nil_append,
          List.length_cons, List.length_append]
        omega
      | true =>
        simp only [bucketLines, eq_self_iff_true, if_true, List.singleton_append,
          List.cons_append, List.nil_append]
        rw [readBlock_skip mode block [] _ n rfl, key (n + 1)]
        congr 1
        simp only [bucketLines, eq_self_iff_true, if_true, List.singleton_append,
          List.length_cons, List.length_append, List.nil_append]
        omega

theorem parse_entries {mode : Mode} (ind : Nat) :
    ∀ es : List (Str × List Directive),
    (∀ n ds dir c, (n, ds) ∈ es → dir ∈ ds → Directive.child dir = some c →
      validDoc mode c = true →
      ∀ j (block : Scfg) (tail : List Str) (n' : Nat),
        readBlock mode block (docLines j c ++ tail) n' =
          readBlock mode (addAllDirs mode block (flattenEntries (Scfg.directives c)))
            tail (n' + (docLines j c).length)) →
    validEntries mode es = true →
    ∀ (pre : Bool) (block : Scfg) (tail : List Str) (n : Nat),
      readBlock mode block (entriesLines ind pre es ++ tail) n =
        readBlock mode (addAllDirs mode block (flattenEntries es)) tail
          (n + (entriesLines ind pre es).length) := by
  intro es
  induction es with
  | nil =>
    intro _ _ pre block tail n
    simp [entriesLines, flattenEntries, addAllDirs]
  | cons e rest ih =>
    intro hchild hve pre block tail n
    obtain ⟨name, ds⟩ := e
    have hve2 : (noNL name = true ∧ ¬ds = [] ∧ validBucket mode ds = true) ∧
        validEntries mode rest = true := by
      simpa [validEntries, and_assoc] using hve
    simp only [entriesLines, flattenEntries]
    exact parse_bucket ind name ds rest
      (fun dir c h1 h2 h3 => hchild name ds dir c (List.mem_cons_self _ _) h1 h2 h3)
      hve2.1.2.2
      (fun pre2 block2 tail2 n2 => ih
        (fun n3 ds3 dir c h1 h2 h3 h4 =>
          hchild n3 ds3 dir c (List.mem_cons_of_mem _ h1) h2 h3 h4)
        hve2.2 pre2 block2 tail2 n2)
      pre block tail n

theorem parse_doc {mode : Mode} :
    ∀ c : Scfg, validDoc mode c = true →
    ∀ j (block : Scfg) (tail : List Str) (n : Nat),
      readBlock mode block (docLines j c ++ tail) n =
        readBlock mode (addAllDirs mode block (flattenEntries (Scfg.directives c)))
          tail (n + (docLines j c).length) := by
  apply scfgRecAux (P := fun c => validDoc mode c = true →
    ∀ j (block : Scfg) (tail : List Str) (n : Nat),
      readBlock mode block (docLines j c ++ tail) n =
        readBlock mode (addAllDirs mode block (flattenEntries (Scfg.directives c)))
          tail (n + (docLines j c).length))
  intro es hchild hv j block tail n
  have hv2 : keysOrdered mode (keysOf es) = true ∧ validEntries mode es = true := by
    simpa [validDoc] using hv
  simp only [docLines, Scfg.directives]
  exact parse_entries j es
    (fun n2 ds dir c h1 h2 h3 h4 => hchild n2 ds dir c h1 h2 h3 h4) hv2.2
    false block tail n

theorem parse_write {mode : Mode} {d : Scfg} (hv : validDoc mode d = true) :
    parseScfg mode (writeDoc 0 d) = .ok d := by
  rw [parseScfg, writeDoc_joinNL d 0,
    toLines_joinNL (fun l hl => docLines_noNL d hv 0 l hl)]
  rw [documentLines]
  rw [show docLines 0 d = docLines 0 d ++ [] by simp] at *
  rw [parse_doc d hv 0 Scfg.empty [] 0]
  rw [rebuild_empty hv, readBlock_nil]

theorem noNL_append {a b : Str} (ha : noNL a = true) (hb : noNL b = true) :
    noNL (a ++ b) = true := by
  simp only [noNL, List.all_append, Bool.and_eq_true]
  exact ⟨ha, hb⟩

theorem noNL_cons_iff {c : Char} {cs : Str} :
    noNL (c :: cs) = true ↔ (c != '\n') = true ∧ noNL cs = true := by
  simp [noNL]

theorem splitLoop_noNL :
    ∀ (input : Str) (st : SState) (w : Str) (acc res : List Str),
    splitLoop st w acc input = some res →
    noNL input = true → noNL w = true → acc.all noNL = true →
    res.all noNL = true := by
  intro input
  induction input with
  | nil =>
    intro st w acc res h hi hw hacc
    have hpush : (acc ++ [w ++ [cBS]]).all noNL = true := by
      simp only [List.all_append, Bool.and_eq_true]
      exact ⟨hacc, by simpa using noNL_append hw (by decide)⟩
    have hpush2 : (acc ++ [w]).all noNL = true := by
      simp only [List.all_append, Bool.and_eq_true]
      exact ⟨hacc, by simpa using hw⟩
    cases st with
    | delim =>
      simp only [splitLoop, Option.some.injEq] at h
      subst h; exact hacc
    | bslash =>
      simp only [splitLoop, Option.some.injEq] at h
      subst h; exact hpush
    | unquoted =>
      simp only [splitLoop, Option.some.injEq] at h
      subst h; exact hpush2
    | unqBslash =>
      simp only [splitLoop, Option.some.injEq] at h
      subst h; exact hpush
    | single => simp [splitLoop] at h
    | double => simp [splitLoop] at h
    | dblBslash => simp [splitLoop] at h
    | comment =>
      simp only [splitLoop, Option.some.injEq] at h
      subst h; exact hacc
  | cons c cs ih =>
    intro st w acc res h hi hw hacc
    have hi2 : (c != '\n') = true ∧ noNL cs = true := noNL_cons_iff.mp hi
    have hcnl : noNL [c] = true := by simp [noNL, hi2.1]
    have hbsnl : noNL [cBS] = true := by decide
    have hpushacc : (acc ++ [w]).all noNL = true := by
      simp only [List.all_append, Bool.and_eq_true]
      exact ⟨hacc, by simpa using hw⟩
    cases st <;> simp only [splitLoop] at h <;> split_ifs at h <;>
      first
      | exact ih _ _ _ _ h hi2.2 hw hacc
      | exact ih _ _ _ _ h hi2.2 (noNL_append hw hcnl) hacc
      | exact ih _ _ _ _ h hi2.2 (by decide) hpushacc
      | exact ih _ _ _ _ h hi2.2 (noNL_append (noNL_append hw hbsnl) hcnl) hacc
      | exact ih _ _ _ _ h hi2.2 (noNL_append hw hbsnl) hacc

theorem splitWords_noNL {s : Str} {ws : List Str} (h : splitWords s = some ws)
    (hs : noNL s = true) : ws.all noNL = true :=
  splitLoop_noNL s .delim [] [] ws h hs (by decide) (by decide)

theorem toLines_cons_nil {c : Char} {cs : Str} (hc : ¬c = '\n') (he : toLines cs = []) :
    toLines (c :: cs) = [[c]] := by
  simp [toLines, hc, he]

theorem toLines_cons_cons {c : Char} {cs t : Str} {ts : List Str} (hc : ¬c = '\n')
    (he : toLines cs = t :: ts) : toLines (c :: cs) = (c :: t) :: ts := by
  simp [toLines, hc, he]

theorem toLines_noNL : ∀ (s : Str) (l : Str), l ∈ toLines s → noNL l = true := by
  intro s
  induction s with
  | nil => intro l hl; simp [toLines] at hl
  | cons c cs ih =>
    intro l hl
    by_cases hc : c = '\n'
    · subst hc
      have he2 : toLines ('\n' :: cs) = [] :: toLines cs := by simp [toLines]
      rw [he2] at hl
      rcases List.mem_cons.mp hl with hl | hl
      · subst hl; decide
      · exact ih l hl
    · cases he : toLines cs with
      | nil =>
        rw [toLines_cons_nil hc he] at hl
        simp only [List.mem_singleton] at hl
        subst hl
        simp [noNL, hc]
      | cons t ts =>
        rw [toLines_cons_cons hc he] at hl
        rcases List.mem_cons.mp hl with hl | hl
        · subst hl
          rw [noNL_cons_iff]
          exact ⟨by simp [hc], ih t (by rw [he]; simp)⟩
        · exact ih l (by rw [he]; exact List.mem_cons_of_mem _ hl)

theorem mem_trim {c : Char} {l : Str} (h : c ∈ trim l) : c ∈ l := by
  simp only [trim, List.mem_reverse] at h
  have h2 := (List.dropWhile_sublist isWS).mem h
  rw [List.mem_reverse] at h2
  exact (List.dropWhile_sublist isWS).mem h2

theorem trim_noNL {l : Str} (h : noNL l = true) : noNL (trim l) = true := by
  simp only [noNL, List.all_eq_true] at h ⊢
  exact fun c hc => h c (mem_trim hc)

theorem char_toNat_inj {c d : Char} (h : c.toNat = d.toNat) : c = d :=
  Char.ext (UInt32.ext h)

theorem ltStr_total : ∀ a b : Str, a = b ∨ ltStr a b = true ∨ ltStr b a = true := by
  intro a
  induction a with
  | nil =>
    intro b
    cases b with
    | nil => exact Or.inl rfl
    | cons d ds => exact Or.inr (Or.inl (by simp [ltStr]))
  | cons c cs ih =>
    intro b
    cases b with
    | nil => exact Or.inr (Or.inr (by simp [ltStr]))
    | cons d ds =>
      by_cases h1 : c.toNat < d.toNat
      · exact Or.inr (Or.inl (by simp [ltStr, if_pos h1]))
      · by_cases h2 : d.toNat < c.toNat
        · exact Or.inr (Or.inr (by simp [ltStr, if_pos h2]))
        · have he : c = d := char_toNat_inj (by omega)
          subst he
          rcases ih ds with h3 | h3 | h3
          · exact Or.inl (by rw [h3])
          · exact Or.inr (Or.inl (by simp [ltStr, if_neg h1, if_neg h2, h3]))
          · exact Or.inr (Or.inr (by simp [ltStr, if_neg h1, if_neg h2, h3]))

theorem validBucket_append {mode : Mode} {ds : List Directive} {dir : Directive}
    (h1 : validBucket mode ds = true) (h2 : validDir mode dir = true) :
    validBucket mode (ds ++ [dir]) = true := by
  induction ds with
  | nil => simpa [validBucket]
  | cons d ds ih =>
    have h3 : validDir mode d = true ∧ validBucket mode ds = true := by
      simpa [validBucket] using h1
    simp only [List.cons_append, validBucket, Bool.and_eq_true]
    exact ⟨h3.1, ih h3.2⟩

theorem mem_keys_addEntrySorted {n : Str} {dir : Directive} :
    ∀ {es : List (Str × List Directive)} {x : Str},
    x ∈ keysOf (addEntrySorted es n dir) → x ∈ keysOf es ∨ x = n := by
  intro es
  induction es with
  | nil =>
    intro x hx
    simp [addEntrySorted, keysOf] at hx
    exact Or.inr hx
  | cons e rest ih =>
    intro x hx
    obtain ⟨k, ds⟩ := e
    simp only [addEntrySorted] at hx
    by_cases h1 : n = k
    · rw [if_pos h1] at hx
      exact Or.inl (by simpa [keysOf] using hx)
    · rw [if_neg h1] at hx
      by_cases h2 : ltStr n k = true
      · rw [if_pos h2] at hx
        simp only [keysOf, List.map_cons, List.mem_cons] at hx ⊢
        tauto
      · rw [if_neg h2] at hx
        simp only [keysOf, List.map_cons, List.mem_cons] at hx ⊢
        rcases hx with hx | hx
        · tauto
        · rcases ih hx with h3 | h3
          · exact Or.inl (Or.inr (by simpa [keysOf] using h3))
          · exact Or.inr h3

theorem mem_keys_addEntryPres {n : Str} {dir : Directive} :
    ∀ {es : List (Str × List Directive)} {x : Str},
    x ∈ keysOf (addEntryPres es n dir) → x ∈ keysOf es ∨ x = n := by
  intro es
  induction es with
  | nil =>
    intro x hx
    simp [addEntryPres, keysOf] at hx
    exact Or.inr hx
  | cons e rest ih =>
    intro x hx
    obtain ⟨k, ds⟩ := e
    simp only [addEntryPres] at hx
    by_cases h1 : n = k
    · rw [if_pos h1] at hx
      exact Or.inl (by simpa [keysOf] using hx)
    · rw [if_neg h1] at hx
      simp only [keysOf, List.map_cons, List.mem_cons] at hx ⊢
      rcases hx with hx | hx
      · tauto
      · rcases ih hx with h3 | h3
        · exact Or.inl (Or.inr (by simpa [keysOf] using h3))
        · exact Or.inr h3

theorem keys_head_addEntrySorted {n : Str} {dir : Directive}
    {es : List (Str × List Directive)} {h : Str}
    (hh : (keysOf (addEntrySorted es n dir)).head? = some h) :
    h = n ∨ (keysOf es).head? = some h := by
  cases es with
  | nil =>
    simp [addEntrySorted, keysOf] at hh
    exact Or.inl hh.symm
  | cons e rest =>
    obtain ⟨k, ds⟩ := e
    simp only [addEntrySorted] at hh
    by_cases h1 : n = k
    · rw [if_pos h1] at hh
      exact Or.inr (by simpa [keysOf] using hh)
    · rw [if_neg h1] at hh
      by_cases h2 : ltStr n k = true
      · rw [if_pos h2] at hh
        simp only [keysOf, List.map_cons, List.head?_cons, Option.some.injEq] at hh
        exact Or.inl hh.symm
      · rw [if_neg h2] at hh
        exact Or.inr (by simpa [keysOf] using hh)

theorem validDir_none {mode : Mode} {ps : List Str} :
    validDir mode (Directive.mk ps none) = ps.all noNL := by
  simp [validDir]

theorem validDir_some {mode : Mode} {ps : List Str} {c : Scfg} :
    validDir mode (Directive.mk ps (some c)) = (ps.all noNL && validDoc mode c) := by
  simp [validDir]

theorem validEntries_cons {mode : Mode} {k : Str} {ds : List Directive}
    {rest : List (Str × List Directive)} :
    validEntries mode ((k, ds) :: rest) = true ↔
      noNL k = true ∧ ds ≠ [] ∧ validBucket mode ds = true ∧
        validEntries mode rest = true := by
  simp [validEntries, and_assoc]

theorem strictSorted_cons2 {a b : Str} {t : List Str} :
    strictSorted (a :: b :: t) = true ↔
      ltStr a b = true ∧ strictSorted (b :: t) = true := by
  simp [strictSorted]

theorem addSorted_aux {n : Str} {dir : Directive}
    (hn : noNL n = true) (hd : validDir .sorted dir = true) :
    ∀ es : List (Str × List Directive),
    strictSorted (keysOf es) = true → validEntries .sorted es = true →
    strictSorted (keysOf (addEntrySorted es n dir)) = true ∧
      validEntries .sorted (addEntrySorted es n dir) = true := by
  intro es
  induction es with
  | nil =>
    intro _ _
    constructor
    · simp [addEntrySorted, keysOf, strictSorted]
    · rw [show addEntrySorted [] n dir = [(n, [dir])] from rfl]
      rw [validEntries_cons]
      exact ⟨hn, by simp, by simp [validBucket, hd], by simp [validEntries]⟩
  | cons e rest ih =>
    intro hs hv
    obtain ⟨k, ds⟩ := e
    have hs2 : strictSorted (keysOf rest) = true :=
      strictSorted_tail (by simpa [keysOf] using hs)
    have hv2 := validEntries_cons.mp hv
    simp only [addEntrySorted]
    by_cases h1 : n = k
    · rw [if_pos h1]
      constructor
      · simpa [keysOf] using hs
      · subst h1
        rw [validEntries_cons]
        exact ⟨hv2.1, by simp, validBucket_append hv2.2.2.1 hd, hv2.2.2.2⟩
    · rw [if_neg h1]
      by_cases h2 : ltStr n k = true
      · rw [if_pos h2]
        constructor
        · have h3 : strictSorted (n :: k :: List.map Prod.fst rest) = true := by
            rw [strictSorted_cons2]
            exact ⟨h2, by simpa [keysOf] using hs⟩
          simpa [keysOf] using h3
        · rw [validEntries_cons]
          refine ⟨hn, by simp, by simp [validBucket, hd], ?_⟩
          rw [validEntries_cons]
          exact ⟨hv2.1, hv2.2.1, hv2.2.2.1, hv2.2.2.2⟩
      · rw [if_neg h2]
        have hlt : ltStr k n = true := by
          rcases ltStr_total n k with h3 | h3 | h3
          · exact absurd h3 h1
          · exact absurd h3 h2
          · exact h3
        obtain ⟨ihs, ihv⟩ := ih hs2 hv2.2.2.2
        constructor
        · rw [show keysOf ((k, ds) :: addEntrySorted rest n dir) =
            k :: keysOf (addEntrySorted rest n dir) by simp [keysOf]]
          cases hh : keysOf (addEntrySorted rest n dir) with
          | nil => simp [strictSorted]
          | cons y t =>
            have hhead : y = n ∨ (keysOf rest).head? = some y :=
              keys_head_addEntrySorted (by rw [hh]; rfl)
            have hky : ltStr k y = true := by
              rcases hhead with h3 | h3
              · subst h3; exact hlt
              · cases he2 : keysOf rest with
                | nil => rw [he2] at h3; simp at h3
                | cons k2 t2 =>
                  rw [he2] at h3
                  simp only [List.head?_cons, Option.some.injEq] at h3
                  subst h3
                  have h5 : strictSorted (k :: k2 :: t2) = true := by
                    have h6 := hs
                    rw [show keysOf ((k, ds) :: rest) = k :: keysOf rest by
                      simp [keysOf], he2] at h6
                    exact h6
                  exact (strictSorted_cons2.mp h5).1
            rw [hh] at ihs
            rw [strictSorted_cons2]
            exact ⟨hky, ihs⟩
        · rw [validEntries_cons]
          exact ⟨hv2.1, hv2.2.1, hv2.2.2.1, ihv⟩

theorem allDistinct_head {x : Str} {l : List Str} (h : allDistinct (x :: l) = true) :
    x ∉ l ∧ allDistinct l = true := by
  simpa [allDistinct] using h

theorem allDistinct_cons {x : Str} {l : List Str} (h1 : x ∉ l)
    (h2 : allDistinct l = true) : allDistinct (x :: l) = true := by
  simp [allDistinct, h1, h2]

theorem addPres_aux {n : Str} {dir : Directive}
    (hn : noNL n = true) (hd : validDir .preserveOrder dir = true) :
    ∀ es : List (Str × List Directive),
    allDistinct (keysOf es) = true → validEntries .preserveOrder es = true →
    allDistinct (keysOf (addEntryPres es n dir)) = true ∧
      validEntries .preserveOrder (addEntryPres es n dir) = true := by
  intro es
  induction es with
  | nil =>
    intro _ _
    constructor
    · simp [addEntryPres, keysOf, allDistinct]
    · rw [show addEntryPres [] n dir = [(n, [dir])] from rfl]
      rw [validEntries_cons]
      exact ⟨hn, by simp, by simp [validBucket, hd], by simp [validEntries]⟩
  | cons e rest ih =>
    intro hs hv
    obtain ⟨k, ds⟩ := e
    have hs0 : k ∉ keysOf rest ∧ allDistinct (keysOf rest) = true :=
      allDistinct_head (by simpa [keysOf] using hs)
    have hv2 := validEntries_cons.mp hv
    simp only [addEntryPres]
    by_cases h1 : n = k
    · rw [if_pos h1]
      constructor
      · simpa [keysOf] using hs
      · subst h1
        rw [validEntries_cons]
        exact ⟨hv2.1, by simp, validBucket_append hv2.2.2.1 hd, hv2.2.2.2⟩
    · rw [if_neg h1]
      obtain ⟨ihs, ihv⟩ := ih hs0.2 hv2.2.2.2
      constructor
      · have hnot : k ∉ keysOf (addEntryPres rest n dir) := by
          intro hmem
          rcases mem_keys_addEntryPres hmem with h3 | h3
          · exact hs0.1 h3
          · exact h1 h3.symm
        have h4 : allDistinct (k :: keysOf (addEntryPres rest n dir)) = true :=
          allDistinct_cons hnot ihs
        simpa [keysOf] using h4
      · rw [validEntries_cons]
        exact ⟨hv2.1, hv2.2.1, hv2.2.2.1, ihv⟩

theorem validDoc_mk {mode : Mode} {es : List (Str × List Directive)} :
    validDoc mode (.mk es) = (keysOrdered mode (keysOf es) && validEntries mode es) := by
  simp [validDoc]

theorem validDoc_addDirective {mode : Mode} {d : Scfg} {n : Str} {dir : Directive}
    (hv : validDoc mode d = true) (hn : noNL n = true) (hd : validDir mode dir = true) :
    validDoc mode (d.addDirective mode n dir) = true := by
  obtain ⟨es⟩ := d
  have hv2 : keysOrdered mode (keysOf es) = true ∧ validEntries mode es = true := by
    simpa [validDoc_mk] using hv
  cases mode with
  | sorted =>
    obtain ⟨h1, h2⟩ := addSorted_aux hn hd es (by simpa [keysOrdered] using hv2.1) hv2.2
    simp only [Scfg.addDirective, Scfg.directives, validDoc_mk, Bool.and_eq_true]
    exact ⟨by simpa [keysOrdered] using h1, h2⟩
  | preserveOrder =>
    obtain ⟨h1, h2⟩ := addPres_aux hn hd es (by simpa [keysOrdered] using hv2.1) hv2.2
    simp only [Scfg.addDirective, Scfg.directives, validDoc_mk, Bool.and_eq_true]
    exact ⟨by simpa [keysOrdered] using h1, h2⟩

theorem validDoc_empty (mode : Mode) : validDoc mode Scfg.empty = true := by
  cases mode <;> simp [Scfg.empty, validDoc_mk, keysOrdered, keysOf, strictSorted,
    allDistinct, validEntries]

theorem readBlock_rem_length {mode : Mode} {block : Scfg} {lines : List Str} {n : Nat}
    {d : Scfg} {b : Bool} {rem : List Str} {n2 : Nat}
    (h : readBlock mode block lines n = .ok (d, b, rem, n2)) :
    rem.length ≤ lines.length := by
  rw [readBlock] at h
  cases hc : readBlockCore mode block lines n with
  | error e => rw [hc] at h; simp at h
  | ok v =>
    obtain ⟨d2, b2, rem2, n3⟩ := v
    rw [hc] at h
    simp only [Except.ok.injEq, Prod.mk.injEq] at h
    obtain ⟨-, -, h3, -⟩ := h
    rw [← h3]
    exact rem2.2

theorem dropLast_all {p : Str → Bool} {l : List Str} (h : l.all p = true) :
    l.dropLast.all p = true := by
  rw [List.all_eq_true] at h ⊢
  exact fun x hx => h x (List.dropLast_subset l hx)

theorem readBlock_valid {mode : Mode} :
    ∀ (N : Nat) (lines : List Str), lines.length ≤ N →
    (∀ l ∈ lines, noNL l = true) →
    ∀ (block : Scfg) (n : Nat) (d : Scfg) (b : Bool) (rem : List Str) (n2 : Nat),
    validDoc mode block = true →
    readBlock mode block lines n = .ok (d, b, rem, n2) →
    validDoc mode d = true ∧ ∀ l ∈ rem, noNL l = true := by
  intro N
  induction N with
  | zero =>
    intro lines hlen _ block n d b rem n2 hvb h
    have : lines = [] := List.length_eq_zero.mp (Nat.le_zero.mp hlen)
    subst this
    rw [readBlock_nil] at h
    simp only [Except.ok.injEq, Prod.mk.injEq] at h
    obtain ⟨h1, -, h3, -⟩ := h
    subst h1
    refine ⟨hvb, ?_⟩
    rw [← h3]
    intro l hl
    simp at hl
  | succ N ih =>
    intro lines hlen hnl block n d b rem n2 hvb h
    cases lines with
    | nil =>
      rw [readBlock_nil] at h
      simp only [Except.ok.injEq, Prod.mk.injEq] at h
      obtain ⟨h1, -, h3, -⟩ := h
      subst h1
      refine ⟨hvb, ?_⟩
      rw [← h3]
      intro l hl
      simp at hl
    | cons l rest =>
      have hlen2 : rest.length ≤ N := by simpa using hlen
      have hnl2 : ∀ x ∈ rest, noNL x = true := fun x hx => hnl x (List.mem_cons_of_mem _ hx)
      have hnll : noNL (trim l) = true := trim_noNL (hnl l (List.mem_cons_self _ _))
      cases hsw : splitWords (trim l) with
      | none => rw [readBlock_tokErr mode block l rest n hsw] at h; simp at h
      | some words =>
        cases words with
        | nil =>
          rw [readBlock_skip mode block l rest n hsw] at h
          exact ih rest hlen2 hnl2 block (n + 1) d b rem n2 hvb h
        | cons w ws =>
          have hwords : (w :: ws).all noNL = true := splitWords_noNL hsw hnll
          have hwnl : noNL w = true := by
            have := List.all_eq_true.mp hwords w (List.mem_cons_self _ _)
            simpa using this
          have hwsnl : ws.all noNL = true := by
            rw [List.all_eq_true] at hwords ⊢
            exact fun x hx => hwords x (List.mem_cons_of_mem _ hx)
          by_cases hclose : ws = [] ∧ (trim l).getLast? = some '}'
          · obtain ⟨hws, hlast⟩ := hclose
            subst hws
            rw [readBlock_close mode block l rest n w hsw hlast] at h
            simp only [Except.ok.injEq, Prod.mk.injEq] at h
            obtain ⟨h1, -, h3, -⟩ := h
            subst h1
            refine ⟨hvb, ?_⟩
            rw [← h3]
            exact hnl2
          · by_cases hopen : (w :: ws).getLast? = some obraceWord ∧
                (trim l).getLast? = some '{'
            · cases hrec : readBlock mode Scfg.empty rest (n + 1) with
              | error e =>
                rw [readBlock_open_err mode block l rest n w ws e hsw hclose
                  hopen.1 hopen.2 hrec] at h
                simp at h
              | ok v =>
                obtain ⟨c, bb, rem1, n3⟩ := v
                cases bb with
                | false =>
                  rw [readBlock_open_eof mode block l rest n w ws c rem1 n3 hsw hclose
                    hopen.1 hopen.2 hrec] at h
                  simp at h
                | true =>
                  rw [readBlock_open_ok mode block l rest n w ws c rem1 n3 hsw hclose
                    hopen.1 hopen.2 hrec] at h
                  have hchild := ih rest hlen2 hnl2 Scfg.empty (n + 1) c true rem1 n3
                    (validDoc_empty mode) hrec
                  have hrem1 : rem1.length ≤ N :=
                    Nat.le_trans (readBlock_rem_length hrec) hlen2
                  have hnp : noNL (nameAndParams ((w :: ws).dropLast)).1 = true ∧
                      (nameAndParams ((w :: ws).dropLast)).2.all noNL = true := by
                    have hdl : ((w :: ws).dropLast).all noNL = true := dropLast_all hwords
                    cases hx : (w :: ws).dropLast with
                    | nil => simp [nameAndParams, noNL]
                    | cons a t =>
                      rw [hx] at hdl
                      simp only [List.all_cons, Bool.and_eq_true] at hdl
                      simpa [nameAndParams] using hdl
                  have hbv : validDoc mode (block.addDirective mode
                      (nameAndParams ((w :: ws).dropLast)).1
                      (Directive.mk (nameAndParams ((w :: ws).dropLast)).2 (some c))) =
                      true := by
                    apply validDoc_addDirective hvb hnp.1
                    rw [validDir_some, Bool.and_eq_true]
                    exact ⟨hnp.2, hchild.1⟩
                  exact ih rem1 hrem1 hchild.2 _ n3 d b rem n2 hbv h
            · rw [readBlock_flat mode block l rest n w ws hsw hclose hopen] at h
              have hbv : validDoc mode
                  (block.addDirective mode w (Directive.mk ws none)) = true := by
                apply validDoc_addDirective hvb hwnl
                rw [validDir_none]
                exact hwsnl
              exact ih rest hlen2 hnl2 _ (n + 1) d b rem n2 hbv h

theorem parse_valid {mode : Mode} {s : Str} {d : Scfg}
    (h : parseScfg mode s = .ok d) : validDoc mode d = true := by
  rw [parseScfg, documentLines] at h
  cases hr : readBlock mode Scfg.empty (toLines s) 0 with
  | error e => rw [hr] at h; simp at h
  | ok v =>
    obtain ⟨d2, b, rem, n2⟩ := v
    cases b with
    | true => rw [hr] at h; simp at h
    | false =>
      rw [hr] at h
      simp only [Except.ok.injEq] at h
      subst h
      exact (readBlock_valid (toLines s).length (toLines s) (Nat.le_refl _)
        (fun l hl => toLines_noNL s l hl) Scfg.empty 0 d2 false rem n2
        (validDoc_empty mode) hr).1

/-- C1: for every document `d` built via the builder API (whose map
therefore satisfies the backing map's key invariant with non-empty
buckets) and whose directive names and parameters contain no structurally
invalid characters (no embedded newline, the one character quoting cannot
protect), parsing the serialized text yields `d` back:
`parse (serialize d) = ok d`, in either key-ordering mode. -/
theorem c1_parse_serialize_roundtrip (mode : Mode) (d : Scfg)
    (hv : validDoc mode d = true) :
    parseScfg mode (Scfg.write d) = .ok d :=
  parse_write hv

def exDoc : Scfg :=
  .mk [(['a'], [Directive.mk [['b', ' ', 'c']] none,
                Directive.mk [] (some (.mk [(['d'], [Directive.mk [] none])]))]),
       (['z'], [Directive.mk [['}']] none])]

theorem c1_witness :
    validDoc .sorted exDoc = true ∧ parseScfg .sorted (Scfg.write exDoc) = .ok exDoc := by
  have hv : validDoc .sorted exDoc = true := by
    simp [exDoc, validDoc, validEntries, validBucket, validDir, keysOrdered, keysOf,
      strictSorted, noNL, ltStr]
  exact ⟨hv, c1_parse_serialize_roundtrip .sorted exDoc hv⟩

/-- C2: for every text `t` on which parsing succeeds with document `d`,
one serialize-parse round trip normalizes the text to a fixed point:
serializing the parse of `serialize (parse t)` gives the same text as
`serialize (parse t)` itself. -/
theorem c2_serialize_parse_stable (mode : Mode) (t : Str) (d : Scfg)
    (h : parseScfg mode t = .ok d) :
    Except.map Scfg.write (parseScfg mode (Scfg.write d)) =
      Except.map Scfg.write (parseScfg mode t) := by
  rw [h, show Scfg.write d = writeDoc 0 d from rfl, parse_write (parse_valid h)]

/-- C10: parsing the empty input succeeds with the empty document,
serializing the empty document writes nothing, and the empty string
round-trips to itself through parse and serialize. -/
theorem c10_empty_roundtrip (mode : Mode) :
    parseScfg mode [] = .ok Scfg.empty ∧ Scfg.write Scfg.empty = [] ∧
      Except.map Scfg.write (parseScfg mode []) = .ok [] := by
  have h1 : parseScfg mode [] = .ok Scfg.empty := by
    rw [parseScfg, show toLines [] = [] from rfl, documentLines, readBlock_nil]
  have h2 : Scfg.write Scfg.empty = [] := by
    simp [Scfg.write, Scfg.empty, writeDoc, writeEntries]
  exact ⟨h1, h2, by rw [h1]; simp [Except.map, h2]⟩

theorem dropWhile_ws_all {pad : Str} (hp : ∀ c ∈ pad, isWS c = true) (x : Str) :
    List.dropWhile isWS (pad ++ x) = List.dropWhile isWS x := by
  induction pad with
  | nil => simp
  | cons c cs ih =>
    simp only [List.cons_append, List.dropWhile_cons]
    rw [if_pos (hp c (List.mem_cons_self _ _))]
    exact ih (fun d hd => hp d (List.mem_cons_of_mem _ hd))

theorem trim_ws_close {pad : Str} (hp : ∀ c ∈ pad, isWS c = true) :
    trim (pad ++ ['}']) = ['}'] := by
  rw [trim, dropWhile_ws_all hp]
  rfl

/-- C4: whenever the tokenizer yields exactly one token for a line and the
trimmed line's last byte is a closing brace, `read_block` ends the current
block at that line, returning the block built so far with the flag `true`;
in particular a line that is a closing brace preceded by any whitespace
(any indentation) always closes the current block. -/
theorem c4_single_token_close_ends_block :
    (∀ (mode : Mode) (block : Scfg) (l : Str) (rest : List Str) (n : Nat) (w : Str),
      splitWords (trim l) = some [w] → (trim l).getLast? = some '}' →
      readBlock mode block (l :: rest) n = .ok (block, true, rest, n + 1)) ∧
    (∀ (mode : Mode) (block : Scfg) (pad : Str) (rest : List Str) (n : Nat),
      (∀ c ∈ pad, isWS c = true) →
      readBlock mode block ((pad ++ ['}']) :: rest) n = .ok (block, true, rest, n + 1)) := by
  constructor
  · intro mode block l rest n w h h2
    exact readBlock_close mode block l rest n w h h2
  · intro mode block pad rest n hp
    exact readBlock_close mode block _ rest n ['}']
      (by rw [trim_ws_close hp]; decide) (by rw [trim_ws_close hp]; decide)

theorem c4_witness :
    splitWords (trim ['}']) = some [['}']] ∧
    (trim ['}']).getLast? = some '}' ∧
    readBlock .sorted Scfg.empty [['}'], ['x']] 0 = .ok (Scfg.empty, true, [['x']], 1) ∧
    (∀ c ∈ ['\t', ' '], isWS c = true) ∧
    readBlock .sorted Scfg.empty [(['\t', ' '] ++ ['}'])] 0 =
      .ok (Scfg.empty, true, [], 1) := by
  refine ⟨by decide, by decide, ?_, by decide, ?_⟩
  · exact c4_single_token_close_ends_block.1 .sorted Scfg.empty ['}'] [['x']] 0 ['}']
      (by decide) (by decide)
  · exact c4_single_token_close_ends_block.2 .sorted Scfg.empty ['\t', ' '] [] 0
      (by decide)

/-- Line that terminates a block: after trimming, the tokenizer yields
exactly one word and the last character is a closing brace. -/
def isCloseLine (l : Str) : Bool :=
  match splitWords (trim l) with
  | some [_] => (trim l).getLast? == some '}'
  | _ => false

theorem readBlock_shape {mode : Mode} :
    ∀ (N : Nat) (lines : List Str), lines.length ≤ N →
    ∀ (block : Scfg) (n : Nat) (d : Scfg) (b : Bool) (rem : List Str) (n2 : Nat),
    readBlock mode block lines n = .ok (d, b, rem, n2) →
    (b = false → rem = [] ∧ n2 = n + lines.length + 1) ∧
    (b = true → ∃ pre l, lines = pre ++ l :: rem ∧ isCloseLine l = true ∧
      n2 = n + pre.length + 1) := by
  intro N
  induction N with
  | zero =>
    intro lines hlen block n d b rem n2 h
    have : lines = [] := List.length_eq_zero.mp (Nat.le_zero.mp hlen)
    subst this
    rw [readBlock_nil] at h
    simp only [Except.ok.injEq, Prod.mk.injEq] at h
    obtain ⟨-, h2, h3, h4⟩ := h
    constructor
    · intro _; exact ⟨h3.symm, by omega⟩
    · intro hb; rw [hb] at h2; simp at h2
  | succ N ih =>
    intro lines hlen block n d b rem n2 h
    cases lines with
    | nil =>
      rw [readBlock_nil] at h
      simp only [Except.ok.injEq, Prod.mk.injEq] at h
      obtain ⟨-, h2, h3, h4⟩ := h
      constructor
      · intro _; exact ⟨h3.symm, by simp; omega⟩
      · intro hb; rw [hb] at h2; simp at h2
    | cons l rest =>
      have hlen2 : rest.length ≤ N := by simpa using hlen
      cases hsw : splitWords (trim l) with
      | none => rw [readBlock_tokErr mode block l rest n hsw] at h; simp at h
      | some words =>
        cases words with
        | nil =>
          rw [readBlock_skip mode block l rest n hsw] at h
          obtain ⟨hf, ht⟩ := ih rest hlen2 block (n + 1) d b rem n2 h
          constructor
          · intro hb
            obtain ⟨h1, h2⟩ := hf hb
            exact ⟨h1, by simp; omega⟩
          · intro hb
            obtain ⟨pre, cl, h1, h2, h3⟩ := ht hb
            exact ⟨l :: pre, cl, by simp [h1], h2, by simp; omega⟩
        | cons w ws =>
          by_cases hclose : ws = [] ∧ (trim l).getLast? = some '}'
          · obtain ⟨hws, hlast⟩ := hclose
            subst hws
            rw [readBlock_close mode block l rest n w hsw hlast] at h
            simp only [Except.ok.injEq, Prod.mk.injEq] at h
            obtain ⟨-, h2, h3, h4⟩ := h
            constructor
            · intro hb; rw [hb] at h2; simp at h2
            · intro _
              refine ⟨[], l, by simp [h3], ?_, by simp; omega⟩
              simp only [isCloseLine, hsw]
              simp [hlast]
          · by_cases hopen : (w :: ws).getLast? = some obraceWord ∧
                (trim l).getLast? = some '{'
            · cases hrec : readBlock mode Scfg.empty rest (n + 1) with
              | error e =>
                rw [readBlock_open_err mode block l rest n w ws e hsw hclose
                  hopen.1 hopen.2 hrec] at h
                simp at h
              | ok v =>
                obtain ⟨c, bb, rem1, n3⟩ := v
                cases bb with
                | false =>
                  rw [readBlock_open_eof mode block l rest n w ws c rem1 n3 hsw hclose
                    hopen.1 hopen.2 hrec] at h
                  simp at h
                | true =>
                  rw [readBlock_open_ok mode block l rest n w ws c rem1 n3 hsw hclose
                    hopen.1 hopen.2 hrec] at h
                  have hsub := ih rest hlen2 Scfg.empty (n + 1) c true rem1 n3 hrec
                  obtain ⟨pre1, cl1, he1, hc1, hn1⟩ := hsub.2 rfl
                  have hrem1 : rem1.length ≤ N := by
                    have := readBlock_rem_length hrec
                    omega
                  obtain ⟨hf, ht⟩ := ih rem1 hrem1 _ n3 d b rem n2 h
                  constructor
                  · intro hb
                    obtain ⟨h1, h2⟩ := hf hb
                    refine ⟨h1, ?_⟩
                    have hrl : rest.length = pre1.length + 1 + rem1.length := by
                      rw [he1]; simp; omega
                    simp only [List.length_cons]
                    omega
                  · intro hb
                    obtain ⟨pre2, cl2, h1, h2, h3⟩ := ht hb
                    refine ⟨l :: pre1 ++ cl1 :: pre2, cl2, ?_, h2, ?_⟩
                    · rw [List.cons_append]
                      rw [he1, h1]
                      simp
                    · simp only [List.length_append, List.length_cons]
                      omega
            · rw [readBlock_flat mode block l rest n w ws hsw hclose hopen] at h
              obtain ⟨hf, ht⟩ := ih rest hlen2 _ (n + 1) d b rem n2 h
              constructor
              · intro hb
                obtain ⟨h1, h2⟩ := hf hb
                exact ⟨h1, by simp; omega⟩
              · intro hb
                obtain ⟨pre, cl, h1, h2, h3⟩ := ht hb
                exact ⟨l :: pre, cl, by simp [h1], h2, by simp; omega⟩

theorem readBlock_err_kind {mode : Mode} :
    ∀ (N : Nat) (lines : List Str), lines.length ≤ N →
    ∀ (block : Scfg) (n : Nat) (e : PError),
    readBlock mode block lines n = .error e →
    e.kind = .shellWords ∨ e.kind = .ioUnexpectedEof := by
  intro N
  induction N with
  | zero =>
    intro lines hlen block n e h
    have : lines = [] := List.length_eq_zero.mp (Nat.le_zero.mp hlen)
    subst this
    rw [readBlock_nil] at h
    simp at h
  | succ N ih =>
    intro lines hlen block n e h
    cases lines with
    | nil => rw [readBlock_nil] at h; simp at h
    | cons l rest =>
      have hlen2 : rest.length ≤ N := by simpa using hlen
      cases hsw : splitWords (trim l) with
      | none =>
        rw [readBlock_tokErr mode block l rest n hsw] at h
        simp only [Except.error.injEq] at h
        rw [← h]
        exact Or.inl rfl
      | some words =>
        cases words with
        | nil =>
          rw [readBlock_skip mode block l rest n hsw] at h
          exact ih rest hlen2 block (n + 1) e h
        | cons w ws =>
          by_cases hclose : ws = [] ∧ (trim l).getLast? = some '}'
          · obtain ⟨hws, hlast⟩ := hclose
            subst hws
            rw [readBlock_close mode block l rest n w hsw hlast] at h
            simp at h
          · by_cases hopen : (w :: ws).getLast? = some obraceWord ∧
                (trim l).getLast? = some '{'
            · cases hrec : readBlock mode Scfg.empty rest (n + 1) with
              | error e2 =>
                rw [readBlock_open_err mode block l rest n w ws e2 hsw hclose
                  hopen.1 hopen.2 hrec] at h
                simp only [Except.error.injEq] at h
                rw [← h]
                exact ih rest hlen2 Scfg.empty (n + 1) e2 hrec
              | ok v =>
                obtain ⟨c, bb, rem1, n3⟩ := v
                cases bb with
                | false =>
                  rw [readBlock_open_eof mode block l rest n w ws c rem1 n3 hsw hclose
                    hopen.1 hopen.2 hrec] at h
                  simp only [Except.error.injEq] at h
                  rw [← h]
                  exact Or.inr rfl
                | true =>
                  rw [readBlock_open_ok mode block l rest n w ws c rem1 n3 hsw hclose
                    hopen.1 hopen.2 hrec] at h
                  have hrem1 : rem1.length ≤ N := by
                    have := readBlock_rem_length hrec
                    omega
                  exact ih rem1 hrem1 _ n3 e h
            · rw [readBlock_flat mode block l rest n w ws hsw hclose hopen] at h
              exact ih rest hlen2 _ (n + 1) e h

/-- A concrete parsable text: a directive with a quoted parameter followed
by a comment line. -/
def exText : Str := ['a', ' ', cSQ, 'b', ' ', 'c', cSQ, '\n', '#', 'x']

/-- The document produced by parsing exText. -/
def exDoc2 : Scfg := .mk [(['a'], [Directive.mk [['b', ' ', 'c']] none])]

theorem c2_witness :
    parseScfg .sorted exText = .ok exDoc2 ∧
    Except.map Scfg.write (parseScfg .sorted (Scfg.write exDoc2)) =
      Except.map Scfg.write (parseScfg .sorted exText) := by
  have hlines : toLines exText =
      [['a', ' ', cSQ, 'b', ' ', 'c', cSQ], ['#', 'x']] := by decide
  have hrb : readBlock .sorted Scfg.empty
      [['a', ' ', cSQ, 'b', ' ', 'c', cSQ], ['#', 'x']] 0 =
      .ok (exDoc2, false, [], 3) := by
    rw [readBlock_flat .sorted Scfg.empty _ _ 0 ['a'] [['b', ' ', 'c']]
      (by decide) (by decide) (by decide),
      readBlock_skip _ _ _ _ _ (by decide), readBlock_nil]
    rfl
  have hp : parseScfg .sorted exText = .ok exDoc2 := by
    rw [parseScfg, hlines, documentLines, hrb]
  exact ⟨hp, c2_serialize_parse_stable .sorted exText exDoc2 hp⟩

/-- C3: `read_block` returns `true` exactly when the block terminated on a
literal closing-brace line (some line of the input is a close line and the
remainder starts right after it, with the line number attributed there),
and `false` exactly when it ran off the end of the input (remainder empty,
line number one past the last line); and the top-level `document` fails
with `UnexpectedClosingBrace` at line `n` precisely when `read_block`
starting at line 0 returns `true` with line number `n`. -/
theorem c3_bool_contract_and_stray_brace (mode : Mode) :
    (∀ (block : Scfg) (lines : List Str) (n : Nat) (d : Scfg) (b : Bool)
        (rem : List Str) (n2 : Nat),
      readBlock mode block lines n = .ok (d, b, rem, n2) →
      (b = false → rem = [] ∧ n2 = n + lines.length + 1) ∧
      (b = true → ∃ pre l, lines = pre ++ l :: rem ∧ isCloseLine l = true ∧
        n2 = n + pre.length + 1)) ∧
    (∀ (lines : List Str) (n : Nat),
      documentLines mode lines = .error ⟨.unexpectedClosingBrace, n⟩ ↔
      ∃ d rem, readBlock mode Scfg.empty lines 0 = .ok (d, true, rem, n)) := by
  constructor
  · intro block lines n d b rem n2 h
    exact readBlock_shape lines.length lines (Nat.le_refl _) block n d b rem n2 h
  · intro lines n
    constructor
    · intro h
      rw [documentLines] at h
      cases hrb : readBlock mode Scfg.empty lines 0 with
      | error e =>
        rw [hrb] at h
        simp only [Except.error.injEq] at h
        subst h
        rcases readBlock_err_kind lines.length lines (Nat.le_refl _)
          Scfg.empty 0 _ hrb with hk | hk <;> simp at hk
      | ok v =>
        obtain ⟨d, b, rem, n2⟩ := v
        cases b with
        | false => rw [hrb] at h; simp at h
        | true =>
          rw [hrb] at h
          simp at h
          subst h
          exact ⟨d, rem, rfl⟩
    · intro ⟨d, rem, h⟩
      rw [documentLines, h]

theorem c3_witness :
    (∃ pre l, [['}']] = pre ++ l :: ([] : List Str) ∧ isCloseLine l = true ∧
      1 = 0 + pre.length + 1) ∧
    documentLines .sorted [['}']] = .error ⟨.unexpectedClosingBrace, 1⟩ := by
  have hrb : readBlock .sorted Scfg.empty [['}']] 0 =
      .ok (Scfg.empty, true, [], 1) := by
    rw [readBlock_close .sorted Scfg.empty ['}'] [] 0 ['}'] (by decide) (by decide)]
  constructor
  · exact ((c3_bool_contract_and_stray_brace .sorted).1 Scfg.empty [['}']] 0
      Scfg.empty true [] 1 hrb).2 rfl
  · exact ((c3_bool_contract_and_stray_brace .sorted).2 [['}']] 1).mpr
      ⟨Scfg.empty, [], hrb⟩

/-- C5: on a non-closing line, the parser opens a child block exactly when
the last token is the literal `{` AND the trimmed line's last byte is `{`
(so a quoted `"{"` token, whose line ends in a quote character, does not
count); in the opening case the trailing brace token is removed, the name
is the first remaining token or the empty string if none remain, the rest
become parameters, and the recursively parsed child is attached; otherwise
the line yields a child-less directive from all its tokens. -/
theorem c5_child_open_iff_unquoted_brace (mode : Mode) :
    (∀ (block : Scfg) (l : Str) (rest : List Str) (n : Nat) (w : Str)
        (ws : List Str) (child : Scfg) (rem : List Str) (n2 : Nat),
      splitWords (trim l) = some (w :: ws) →
      ¬(ws = [] ∧ (trim l).getLast? = some '}') →
      (w :: ws).getLast? = some obraceWord →
      (trim l).getLast? = some '{' →
      readBlock mode Scfg.empty rest (n + 1) = .ok (child, true, rem, n2) →
      readBlock mode block (l :: rest) n =
        readBlock mode
          (block.addDirective mode (nameAndParams ((w :: ws).dropLast)).1
            (Directive.mk (nameAndParams ((w :: ws).dropLast)).2 (some child)))
          rem n2) ∧
    (∀ (block : Scfg) (l : Str) (rest : List Str) (n : Nat) (w : Str)
        (ws : List Str),
      splitWords (trim l) = some (w :: ws) →
      ¬(ws = [] ∧ (trim l).getLast? = some '}') →
      ¬((w :: ws).getLast? = some obraceWord ∧ (trim l).getLast? = some '{') →
      readBlock mode block (l :: rest) n =
        readBlock mode (block.addDirective mode w (Directive.mk ws none))
          rest (n + 1)) ∧
    (nameAndParams [] = (([] : Str), ([] : List Str)) ∧
      ∀ (a : Str) (t : List Str), nameAndParams (a :: t) = (a, t)) := by
  refine ⟨?_, ?_, rfl, fun a t => rfl⟩
  · intro block l rest n w ws child rem n2 h hnc hlast hb hrec
    exact readBlock_open_ok mode block l rest n w ws child rem n2 h hnc hlast hb hrec
  · intro block l rest n w ws h hnc hno
    exact readBlock_flat mode block l rest n w ws h hnc hno

theorem c5_witness :
    readBlock .sorted Scfg.empty [['a', ' ', 'b', ' ', '{'], ['}']] 0 =
      readBlock .sorted
        (Scfg.empty.addDirective .sorted ['a']
          (Directive.mk [['b']] (some Scfg.empty))) [] 2 ∧
    readBlock .sorted Scfg.empty [['a', ' ', cSQ, '{', cSQ]] 0 =
      readBlock .sorted
        (Scfg.empty.addDirective .sorted ['a'] (Directive.mk [['{']] none))
        [] 1 := by
  constructor
  · exact (c5_child_open_iff_unquoted_brace .sorted).1 Scfg.empty
      ['a', ' ', 'b', ' ', '{'] [['}']] 0 ['a'] [['b'], ['{']] Scfg.empty [] 2
      (by decide) (by decide) (by decide) (by decide)
      (readBlock_close .sorted Scfg.empty ['}'] [] 1 ['}'] (by decide) (by decide))
  · exact (c5_child_open_iff_unquoted_brace .sorted).2.1 Scfg.empty
      ['a', ' ', cSQ, '{', cSQ] [] 0 ['a'] [['{']]
      (by decide) (by decide) (by decide)

/-- C6: when a line opens a child block but the recursive read of the
child hits end of input (returns `false`), `read_block` fails with an
`UnexpectedEof` I/O error at the line number the recursive call reached —
one past the last line of input, i.e. the read attempt that detected end
of input — and the top-level parse propagates that error unchanged. -/
theorem c6_unexpected_eof (mode : Mode) :
    (∀ (block : Scfg) (l : Str) (rest : List Str) (n : Nat) (w : Str)
        (ws : List Str) (child : Scfg) (rem : List Str) (n2 : Nat),
      splitWords (trim l) = some (w :: ws) →
      ¬(ws = [] ∧ (trim l).getLast? = some '}') →
      (w :: ws).getLast? = some obraceWord →
      (trim l).getLast? = some '{' →
      readBlock mode Scfg.empty rest (n + 1) = .ok (child, false, rem, n2) →
      readBlock mode block (l :: rest) n = .error ⟨.ioUnexpectedEof, n2⟩ ∧
        rem = [] ∧ n2 = n + 1 + rest.length + 1) ∧
    (∀ (lines : List Str) (e : PError),
      readBlock mode Scfg.empty lines 0 = .error e →
      documentLines mode lines = .error e) := by
  constructor
  · intro block l rest n w ws child rem n2 h hnc hlast hb hrec
    refine ⟨readBlock_open_eof mode block l rest n w ws child rem n2
      h hnc hlast hb hrec, ?_⟩
    have hs := (readBlock_shape rest.length rest (Nat.le_refl _) Scfg.empty
      (n + 1) child false rem n2 hrec).1 rfl
    exact ⟨hs.1, hs.2⟩
  · intro lines e h
    rw [documentLines, h]

theorem c6_witness :
    readBlock .sorted Scfg.empty [['a', ' ', '{']] 0 =
      .error ⟨.ioUnexpectedEof, 2⟩ ∧
    documentLines .sorted [['a', ' ', '{']] = .error ⟨.ioUnexpectedEof, 2⟩ := by
  have h1 := ((c6_unexpected_eof .sorted).1 Scfg.empty ['a', ' ', '{'] [] 0
      ['a'] [['{']] Scfg.empty [] 2 (by decide) (by decide) (by decide)
      (by decide) (readBlock_nil .sorted Scfg.empty 1)).1
  exact ⟨h1, (c6_unexpected_eof .sorted).2 [['a', ' ', '{']] _ h1⟩

theorem lookup_none_of_all_lt {n : Str} :
    ∀ es : List (Str × List Directive),
    (∀ k' ∈ keysOf es, ltStr n k' = true) →
    lookupEntries es n = none := by
  intro es
  induction es with
  | nil => intro _; rfl
  | cons e rest ih =>
    obtain ⟨k, ds⟩ := e
    intro h
    have hk : ltStr n k = true := h k (by simp [keysOf])
    rw [lookupEntries, if_neg (ltStr_ne hk)]
    exact ih (fun k' hk' => h k' (by simp [keysOf]; right; simpa [keysOf] using hk'))

theorem lookup_addEntrySorted {n m : Str} {dir : Directive} :
    ∀ es : List (Str × List Directive),
    strictSorted (keysOf es) = true →
    lookupEntries (addEntrySorted es n dir) m =
      if m = n then some ((lookupEntries es n).getD [] ++ [dir])
      else lookupEntries es m := by
  intro es
  induction es with
  | nil =>
    intro _
    by_cases hmn : m = n
    · subst hmn; simp [addEntrySorted, lookupEntries]
    · simp [addEntrySorted, lookupEntries, hmn]
  | cons e rest ih =>
    obtain ⟨k, ds⟩ := e
    intro hs
    have hs1 : strictSorted (k :: keysOf rest) = true := by simpa [keysOf] using hs
    simp only [addEntrySorted]
    by_cases hnk : n = k
    · rw [if_pos hnk]
      subst hnk
      by_cases hmn : m = n
      · subst hmn; simp [lookupEntries]
      · simp [lookupEntries, hmn]
    · rw [if_neg hnk]
      by_cases hlt : ltStr n k = true
      · rw [if_pos hlt]
        by_cases hmn : m = n
        · subst hmn
          have hnone : lookupEntries ((k, ds) :: rest) m = none := by
            apply lookup_none_of_all_lt
            intro k' hk'
            rw [show keysOf ((k, ds) :: rest) = k :: keysOf rest by
              simp [keysOf]] at hk'
            rcases List.mem_cons.mp hk' with h | h
            · subst h; exact hlt
            · exact ltStr_trans hlt (strictSorted_head_lt hs1 k' h)
          rw [hnone]
          simp [lookupEntries]
        · simp [lookupEntries, hmn]
      · rw [if_neg hlt]
        by_cases hmk : m = k
        · subst hmk
          have hmn : ¬m = n := fun h => hnk h.symm
          simp [lookupEntries, hmn]
        · have hnk2 : ¬n = k := hnk
          simp [lookupEntries, hmk, hnk2, ih (strictSorted_tail hs1)]

theorem lookup_addEntryPres {n m : Str} {dir : Directive} :
    ∀ es : List (Str × List Directive),
    lookupEntries (addEntryPres es n dir) m =
      if m = n then some ((lookupEntries es n).getD [] ++ [dir])
      else lookupEntries es m := by
  intro es
  induction es with
  | nil =>
    by_cases hmn : m = n
    · subst hmn; simp [addEntryPres, lookupEntries]
    · simp [addEntryPres, lookupEntries, hmn]
  | cons e rest ih =>
    obtain ⟨k, ds⟩ := e
    simp only [addEntryPres]
    by_cases hnk : n = k
    · rw [if_pos hnk]
      subst hnk
      by_cases hmn : m = n
      · subst hmn; simp [lookupEntries]
      · simp [lookupEntries, hmn]
    · rw [if_neg hnk]
      by_cases hmk : m = k
      · subst hmk
        have hmn : ¬m = n := fun h => hnk h.symm
        simp [lookupEntries, hmn]
      · simp [lookupEntries, hmk, hnk, ih]

theorem addEntrySorted_keys {n : Str} {dir : Directive} :
    ∀ es : List (Str × List Directive),
    strictSorted (keysOf es) = true →
    strictSorted (keysOf (addEntrySorted es n dir)) = true := by
  intro es
  induction es with
  | nil => intro _; simp [addEntrySorted, keysOf, strictSorted]
  | cons e rest ih =>
    obtain ⟨k, ds⟩ := e
    intro hs
    have hs1 : strictSorted (k :: keysOf rest) = true := by simpa [keysOf] using hs
    simp only [addEntrySorted]
    by_cases h1 : n = k
    · rw [if_pos h1]
      simpa [keysOf] using hs
    · rw [if_neg h1]
      by_cases h2 : ltStr n k = true
      · rw [if_pos h2]
        have h3 : strictSorted (n :: k :: keysOf rest) = true := by
          rw [strictSorted_cons2]
          exact ⟨h2, hs1⟩
        simpa [keysOf] using h3
      · rw [if_neg h2]
        have hlt : ltStr k n = true := by
          rcases ltStr_total n k with h3 | h3 | h3
          · exact absurd h3 h1
          · exact absurd h3 h2
          · exact h3
        have ihs := ih (strictSorted_tail hs1)
        rw [show keysOf ((k, ds) :: addEntrySorted rest n dir) =
          k :: keysOf (addEntrySorted rest n dir) by simp [keysOf]]
        cases hh : keysOf (addEntrySorted rest n dir) with
        | nil => simp [strictSorted]
        | cons y t =>
          have hhead : y = n ∨ (keysOf rest).head? = some y :=
            keys_head_addEntrySorted (by rw [hh]; rfl)
          have hky : ltStr k y = true := by
            rcases hhead with h3 | h3
            · subst h3; exact hlt
            · cases he2 : keysOf rest with
              | nil => rw [he2] at h3; simp at h3
              | cons k2 t2 =>
                rw [he2] at h3
                simp only [List.head?_cons, Option.some.injEq] at h3
                subst h3
                have h5 : strictSorted (k :: k2 :: t2) = true := by
                  rw [he2] at hs1
                  exact hs1
                exact (strictSorted_cons2.mp h5).1
          rw [hh] at ihs
          rw [strictSorted_cons2]
          exact ⟨hky, ihs⟩

/-- Bucket contents after appending a run of directives: the existing
bucket (if any) extended with the run, or the run alone if it is
non-empty. -/
def bucketJoin : Option (List Directive) → List Directive → Option (List Directive)
  | some ds, l => some (ds ++ l)
  | none, l => if l.isEmpty then none else some l

theorem bucketJoin_nil : ∀ o : Option (List Directive), bucketJoin o [] = o
  | some _ => by simp [bucketJoin]
  | none => by simp [bucketJoin]

theorem bucketJoin_snoc_head (o : Option (List Directive)) (d : Directive)
    (l : List Directive) :
    bucketJoin (some (o.getD [] ++ [d])) l = bucketJoin o (d :: l) := by
  cases o with
  | some ds => simp [bucketJoin]
  | none => simp [bucketJoin]

theorem getAll_addAll_aux {mode : Mode} {m : Str} :
    ∀ (ops : List (Str × Directive)) (es : List (Str × List Directive)),
    (mode = .sorted → strictSorted (keysOf es) = true) →
    lookupEntries ((addAllDirs mode (.mk es) ops).directives) m =
      bucketJoin (lookupEntries es m)
        ((ops.filter (fun p => p.1 == m)).map Prod.snd) := by
  intro ops
  induction ops with
  | nil =>
    intro es _
    simp [addAllDirs, Scfg.directives, bucketJoin_nil]
  | cons op rest ih =>
    intro es hinv
    obtain ⟨n, dir⟩ := op
    rw [addAllDirs]
    cases mode with
    | sorted =>
      rw [show (Scfg.mk es).addDirective .sorted n dir =
        .mk (addEntrySorted es n dir) from rfl]
      rw [ih _ (fun _ => addEntrySorted_keys es (hinv rfl))]
      rw [lookup_addEntrySorted es (hinv rfl)]
      by_cases hmn : m = n
      · subst hmn
        rw [if_pos rfl]
        rw [show ((m, dir) :: rest).filter (fun p => p.1 == m) =
          (m, dir) :: rest.filter (fun p => p.1 == m) from by
            simp [List.filter]]
        rw [List.map_cons]
        exact bucketJoin_snoc_head _ _ _
      · rw [if_neg hmn]
        have hne : ¬n = m := fun h => hmn h.symm
        have hb : (n == m) = false := beq_eq_false_iff_ne.mpr hne
        rw [show ((n, dir) :: rest).filter (fun p => p.1 == m) =
          rest.filter (fun p => p.1 == m) from by
            simp [List.filter, hb]]
    | preserveOrder =>
      rw [show (Scfg.mk es).addDirective .preserveOrder n dir =
        .mk (addEntryPres es n dir) from rfl]
      rw [ih _ (fun h => by cases h)]
      rw [lookup_addEntryPres es]
      by_cases hmn : m = n
      · subst hmn
        rw [if_pos rfl]
        rw [show ((m, dir) :: rest).filter (fun p => p.1 == m) =
          (m, dir) :: rest.filter (fun p => p.1 == m) from by
            simp [List.filter]]
        rw [List.map_cons]
        exact bucketJoin_snoc_head _ _ _
      · rw [if_neg hmn]
        have hne : ¬n = m := fun h => hmn h.symm
        have hb : (n == m) = false := beq_eq_false_iff_ne.mpr hne
        rw [show ((n, dir) :: rest).filter (fun p => p.1 == m) =
          rest.filter (fun p => p.1 == m) from by
            simp [List.filter, hb]]

/-- C7: after any sequence of `add_directive` insertions (the single entry
point used by both the parser and the builder `add`), `get_all name`
returns exactly the directives inserted under `name` in insertion order
(the filter of the insertion sequence), and this bucket is identical in
the sorted-map and insertion-order-map modes. -/
theorem c7_per_name_insertion_order (mode : Mode) (ops : List (Str × Directive))
    (name : Str) :
    Scfg.getAll (addAllDirs mode Scfg.empty ops) name =
      (if (ops.filter (fun p => p.1 == name)).isEmpty then none
       else some ((ops.filter (fun p => p.1 == name)).map Prod.snd)) ∧
    Scfg.getAll (addAllDirs .sorted Scfg.empty ops) name =
      Scfg.getAll (addAllDirs .preserveOrder Scfg.empty ops) name := by
  have key : ∀ mo : Mode, Scfg.getAll (addAllDirs mo Scfg.empty ops) name =
      (if (ops.filter (fun p => p.1 == name)).isEmpty then none
       else some ((ops.filter (fun p => p.1 == name)).map Prod.snd)) := by
    intro mo
    have h2 : Scfg.getAll (addAllDirs mo Scfg.empty ops) name =
        bucketJoin none ((ops.filter (fun p => p.1 == name)).map Prod.snd) :=
      @getAll_addAll_aux mo name ops [] (fun _ => rfl)
    rw [h2]
    cases hf : ops.filter (fun p => p.1 == name) with
    | nil => simp [bucketJoin]
    | cons a t => simp [bucketJoin]
  exact ⟨key mode, (key .sorted).trans (key .preserveOrder).symm⟩

/-- Whether any directive line remains to be emitted at this level: the
current bucket still has directives, or some later entry has a non-empty
bucket. -/
def anyDirs (ds : List Directive) (rest : List (Str × List Directive)) : Bool :=
  !ds.isEmpty || rest.any (fun e => !e.2.isEmpty)

mutual

/-- Modelled from the spec: the serializer "recursively emits each name's
directive bucket in the multimap's iteration order"; outer loop over the
entry list. -/
def specEntries (ind : Nat) : List (Str × List Directive) → Str
  | [] => []
  | (name, ds) :: rest => specBucket ind name ds rest
termination_by es => sizeOf es
decreasing_by all_goals simp_wf <;> omega

/-- Modelled from the spec: "for each directive: one tab character per
nesting depth, the quoted name, a space-separated list of quoted
parameters, then either a newline (no child) or a space, an open brace
and a newline, the recursively-rendered child at depth+1, a matching
indent and a closing brace followed by a blank line, then continuation"
— the blank line materializing exactly when a further directive line
follows at this level. -/
def specBucket (ind : Nat) (name : Str) :
    List Directive → List (Str × List Directive) → Str
  | [], rest => specEntries ind rest
  | Directive.mk ps none :: ds, rest =>
    tabs ind ++ quoteWord name ++ paramsStr ps ++
    '\n' :: specBucket ind name ds rest
  | Directive.mk ps (some child) :: ds, rest =>
    tabs ind ++ quoteWord name ++ paramsStr ps ++
    (' ' :: '{' :: '\n' :: []) ++ specDoc (ind + 1) child ++ tabs ind ++
    ('}' :: '\n' :: []) ++ (if anyDirs ds rest then ['\n'] else []) ++
    specBucket ind name ds rest
termination_by ds rest => sizeOf ds + sizeOf rest
decreasing_by all_goals simp_wf <;> omega

/-- Modelled from the spec: serialization of a whole document at a given
depth. -/
def specDoc (ind : Nat) : Scfg → Str
  | .mk es => specEntries ind es
termination_by d => sizeOf d
decreasing_by all_goals simp_wf <;> omega

end

theorem sb_bucket (ind : Nat) (name : Str) :
    ∀ (ds : List Directive) (rest : List (Str × List Directive)),
    (∀ dir c, dir ∈ ds → dir.child = some c →
      ∀ j, writeDoc j c = specDoc j c) →
    (∀ pre : Str, writeEntries ind pre rest =
      (if rest.any (fun e => !e.2.isEmpty) then pre else []) ++
        specEntries ind rest) →
    ∀ pre : Str, writeBucket ind pre name ds rest =
      (if anyDirs ds rest then pre else []) ++ specBucket ind name ds rest := by
  intro ds
  induction ds with
  | nil =>
    intro rest _ hrest pre
    simp only [writeBucket, specBucket]
    rw [hrest pre]
    cases hq : rest.any (fun e => !e.2.isEmpty) <;> simp [anyDirs, hq]
  | cons dir ds ih =>
    intro rest hchild hrest pre
    obtain ⟨ps, ch⟩ := dir
    cases ch with
    | none =>
      simp only [writeBucket, specBucket]
      have hrec := ih rest
        (fun dir2 c h1 h2 => hchild dir2 c (List.mem_cons_of_mem _ h1) h2)
        hrest []
      have hrec2 : writeBucket ind [] name ds rest = specBucket ind name ds rest := by
        rw [hrec]
        cases h : anyDirs ds rest <;> simp
      rw [hrec2]
      rw [show anyDirs (Directive.mk ps none :: ds) rest = true by
        simp [anyDirs, List.isEmpty]]
      simp
    | some child =>
      simp only [writeBucket, specBucket]
      have hrec := ih rest
        (fun dir2 c h1 h2 => hchild dir2 c (List.mem_cons_of_mem _ h1) h2)
        hrest ['\n']
      rw [hrec]
      have hc := hchild (Directive.mk ps (some child)) child
        (List.mem_cons_self _ _) rfl (ind + 1)
      rw [hc]
      rw [show anyDirs (Directive.mk ps (some child) :: ds) rest = true by
        simp [anyDirs, List.isEmpty]]
      simp

theorem sb_entries (ind : Nat) :
    ∀ es : List (Str × List Directive),
    (∀ n ds dir c, (n, ds) ∈ es → dir ∈ ds → dir.child = some c →
      ∀ j, writeDoc j c = specDoc j c) →
    ∀ pre : Str, writeEntries ind pre es =
      (if es.any (fun e => !e.2.isEmpty) then pre else []) ++
        specEntries ind es := by
  intro es
  induction es with
  | nil => intro _ pre; simp [writeEntries, specEntries]
  | cons e rest ih =>
    intro hchild pre
    obtain ⟨name, ds⟩ := e
    simp only [writeEntries, specEntries]
    have hb := sb_bucket ind name ds rest
      (fun dir c h1 h2 => hchild name ds dir c (List.mem_cons_self _ _) h1 h2)
      (fun pre2 => ih (fun n ds2 dir c h1 h2 =>
        hchild n ds2 dir c (List.mem_cons_of_mem _ h1) h2) pre2)
      pre
    rw [hb]
    rw [show ((name, ds) :: rest).any (fun e => !e.2.isEmpty) =
      anyDirs ds rest by simp [anyDirs, List.any_cons]]

/-- C8: the serializer emits, for each directive in the multimap's
iteration order, one tab per nesting depth, the quoted name, a
space-preceded list of quoted parameters, then a newline when there is
no child, or a space, `{` and a newline, the child at depth+1, a
matching indent and `}` and a newline, with a blank line before the next
directive line when one follows: `writeDoc` (translated from the code)
coincides with `specDoc` (modelled from the spec's words). -/
theorem c8_serializer_format : ∀ (d : Scfg) (ind : Nat),
    writeDoc ind d = specDoc ind d ∧ Scfg.write d = specDoc 0 d := by
  have key : ∀ d : Scfg, ∀ ind, writeDoc ind d = specDoc ind d := by
    apply scfgRecAux (P := fun d => ∀ ind, writeDoc ind d = specDoc ind d)
    intro es hchild ind
    simp only [writeDoc, specDoc]
    have h := sb_entries ind es
      (fun n ds dir c h1 h2 h3 => hchild n ds dir c h1 h2 h3) []
    rw [h]
    cases hq : es.any (fun e => !e.2.isEmpty) <;> simp
  intro d ind
  exact ⟨key d ind, key d 0⟩

/-- A directive that keeps the non-empty invariant: its child document,
if present, satisfies `neDoc`. -/
def dirNE : Directive → Bool
  | .mk _ none => true
  | .mk _ (some c) => neDoc c

theorem neBucket_single {dir : Directive} (hd : dirNE dir = true) :
    neBucket [dir] = true := by
  obtain ⟨ps, ch⟩ := dir
  cases ch with
  | none => simp [neBucket]
  | some c =>
    simp only [neBucket, Bool.and_eq_true]
    exact ⟨by simpa [dirNE] using hd, by simp [neBucket]⟩

theorem neBucket_snoc : ∀ {ds : List Directive} {dir : Directive},
    neBucket ds = true → dirNE dir = true → neBucket (ds ++ [dir]) = true := by
  intro ds
  induction ds with
  | nil =>
    intro dir _ hd
    simpa using neBucket_single hd
  | cons d ds ih =>
    intro dir h hd
    obtain ⟨ps, ch⟩ := d
    cases ch with
    | none =>
      rw [List.cons_append]
      simp only [neBucket] at h ⊢
      exact ih h hd
    | some c =>
      rw [List.cons_append]
      simp only [neBucket, Bool.and_eq_true] at h ⊢
      exact ⟨h.1, ih h.2 hd⟩

theorem neEntries_cons {k : Str} {ds : List Directive}
    {rest : List (Str × List Directive)} :
    neEntries ((k, ds) :: rest) = true ↔
      ds ≠ [] ∧ neBucket ds = true ∧ neEntries rest = true := by
  simp [neEntries, and_assoc]

theorem neEntries_addSorted {n : Str} {dir : Directive} (hd : dirNE dir = true) :
    ∀ es, neEntries es = true → neEntries (addEntrySorted es n dir) = true := by
  intro es
  induction es with
  | nil =>
    intro _
    rw [show addEntrySorted [] n dir = [(n, [dir])] from rfl]
    exact neEntries_cons.mpr ⟨by simp, neBucket_single hd, by simp [neEntries]⟩
  | cons e rest ih =>
    intro h
    obtain ⟨k, ds⟩ := e
    have h2 := neEntries_cons.mp h
    simp only [addEntrySorted]
    by_cases h1 : n = k
    · rw [if_pos h1]
      exact neEntries_cons.mpr ⟨by simp, neBucket_snoc h2.2.1 hd, h2.2.2⟩
    · rw [if_neg h1]
      by_cases hlt : ltStr n k = true
      · rw [if_pos hlt]
        exact neEntries_cons.mpr ⟨by simp, neBucket_single hd, h⟩
      · rw [if_neg hlt]
        exact neEntries_cons.mpr ⟨h2.1, h2.2.1, ih h2.2.2⟩

theorem neEntries_addPres {n : Str} {dir : Directive} (hd : dirNE dir = true) :
    ∀ es, neEntries es = true → neEntries (addEntryPres es n dir) = true := by
  intro es
  induction es with
  | nil =>
    intro _
    rw [show addEntryPres [] n dir = [(n, [dir])] from rfl]
    exact neEntries_cons.mpr ⟨by simp, neBucket_single hd, by simp [neEntries]⟩
  | cons e rest ih =>
    intro h
    obtain ⟨k, ds⟩ := e
    have h2 := neEntries_cons.mp h
    simp only [addEntryPres]
    by_cases h1 : n = k
    · rw [if_pos h1]
      exact neEntries_cons.mpr ⟨by simp, neBucket_snoc h2.2.1 hd, h2.2.2⟩
    · rw [if_neg h1]
      exact neEntries_cons.mpr ⟨h2.1, h2.2.1, ih h2.2.2⟩

theorem neDoc_mk {es : List (Str × List Directive)} :
    neDoc (.mk es) = neEntries es := by
  simp [neDoc]

theorem neDoc_addDirective (mode : Mode) (d : Scfg) (n : Str) (dir : Directive)
    (h : neDoc d = true) (hd : dirNE dir = true) :
    neDoc (d.addDirective mode n dir) = true := by
  obtain ⟨es⟩ := d
  have hes : neEntries es = true := by rw [← neDoc_mk]; exact h
  cases mode with
  | sorted =>
    rw [show (Scfg.mk es).addDirective .sorted n dir =
      .mk (addEntrySorted es n dir) from rfl, neDoc_mk]
    exact neEntries_addSorted hd es hes
  | preserveOrder =>
    rw [show (Scfg.mk es).addDirective .preserveOrder n dir =
      .mk (addEntryPres es n dir) from rfl, neDoc_mk]
    exact neEntries_addPres hd es hes

theorem neEntries_all : ∀ es : List (Str × List Directive),
    neEntries es = true ↔ ∀ e ∈ es, e.2 ≠ [] ∧ neBucket e.2 = true := by
  intro es
  induction es with
  | nil => simp [neEntries]
  | cons e rest ih =>
    obtain ⟨k, ds⟩ := e
    rw [neEntries_cons, ih]
    constructor
    · rintro ⟨h1, h2, h3⟩ e2 he
      rcases List.mem_cons.mp he with he | he
      · subst he; exact ⟨h1, h2⟩
      · exact h3 e2 he
    · intro h
      exact ⟨(h (k, ds) (List.mem_cons_self _ _)).1,
        (h (k, ds) (List.mem_cons_self _ _)).2,
        fun e2 he => h e2 (List.mem_cons_of_mem _ he)⟩

theorem neEntries_removeSorted {n : Str} :
    ∀ es, neEntries es = true → neEntries (removeEntriesSorted es n).2 = true := by
  intro es
  induction es with
  | nil => intro _; simp [removeEntriesSorted, neEntries]
  | cons e rest ih =>
    intro h
    obtain ⟨k, ds⟩ := e
    have h2 := neEntries_cons.mp h
    simp only [removeEntriesSorted]
    by_cases h1 : n = k
    · rw [if_pos h1]
      exact h2.2.2
    · rw [if_neg h1]
      exact neEntries_cons.mpr ⟨h2.1, h2.2.1, ih h2.2.2⟩

theorem neEntries_removePres {n : Str} {es : List (Str × List Directive)}
    (h : neEntries es = true) : neEntries (removeEntriesPres es n).2 = true := by
  rw [removeEntriesPres]
  cases hidx : findKeyIdx es n with
  | none => exact h
  | some i =>
    cases hlast : es.getLast? with
    | none => exact h
    | some last =>
      rw [neEntries_all]
      intro e he
      have hmem : e ∈ es := by
        rcases List.mem_or_eq_of_mem_set he with h2 | h2
        · exact List.dropLast_subset _ h2
        · subst h2; exact List.mem_of_getLast?_eq_some hlast
      exact (neEntries_all es).mp h e hmem

theorem neDoc_remove (mode : Mode) (d : Scfg) (n : Str) (h : neDoc d = true) :
    neDoc (Scfg.remove mode d n).2 = true := by
  obtain ⟨es⟩ := d
  have hes : neEntries es = true := by rw [← neDoc_mk]; exact h
  cases mode with
  | sorted =>
    rw [show (Scfg.remove .sorted (Scfg.mk es) n).2 =
      .mk (removeEntriesSorted es n).2 from rfl, neDoc_mk]
    exact neEntries_removeSorted es hes
  | preserveOrder =>
    rw [show (Scfg.remove .preserveOrder (Scfg.mk es) n).2 =
      .mk (removeEntriesPres es n).2 from rfl, neDoc_mk]
    exact neEntries_removePres hes

theorem valid_neBucket {mode : Mode} :
    ∀ ds : List Directive,
    (∀ dir c, dir ∈ ds → dir.child = some c → validDoc mode c = true →
      neDoc c = true) →
    validBucket mode ds = true → neBucket ds = true := by
  intro ds
  induction ds with
  | nil => intro _ _; simp [neBucket]
  | cons d ds ih =>
    intro hc h
    obtain ⟨ps, ch⟩ := d
    have h2 : validDir mode (Directive.mk ps ch) = true ∧
        validBucket mode ds = true := by
      simpa [validBucket, Bool.and_eq_true] using h
    cases ch with
    | none =>
      simp only [neBucket]
      exact ih (fun dir c h1 hh hv => hc dir c (List.mem_cons_of_mem _ h1) hh hv) h2.2
    | some c =>
      simp only [neBucket, Bool.and_eq_true]
      refine ⟨?_, ih (fun dir c2 h1 hh hv =>
        hc dir c2 (List.mem_cons_of_mem _ h1) hh hv) h2.2⟩
      apply hc (Directive.mk ps (some c)) c (List.mem_cons_self _ _) rfl
      have h3 := h2.1
      rw [validDir_some] at h3
      exact (Bool.and_eq_true _ _ ▸ h3).2

theorem valid_neEntries {mode : Mode} :
    ∀ es : List (Str × List Directive),
    (∀ n ds dir c, (n, ds) ∈ es → dir ∈ ds → dir.child = some c →
      validDoc mode c = true → neDoc c = true) →
    validEntries mode es = true → neEntries es = true := by
  intro es
  induction es with
  | nil => intro _ _; simp [neEntries]
  | cons e rest ih =>
    intro hc h
    obtain ⟨k, ds⟩ := e
    have h2 := validEntries_cons.mp h
    refine neEntries_cons.mpr ⟨h2.2.1, ?_, ?_⟩
    · exact valid_neBucket ds
        (fun dir c h1 hh hv => hc k ds dir c (List.mem_cons_self _ _) h1 hh hv)
        h2.2.2.1
    · exact ih (fun n2 ds2 dir c h1 hh hv =>
        hc n2 ds2 dir c (List.mem_cons_of_mem _ h1) hh hv) h2.2.2.2

theorem valid_neDoc {mode : Mode} : ∀ d, validDoc mode d = true → neDoc d = true := by
  apply scfgRecAux (P := fun d => validDoc mode d = true → neDoc d = true)
  intro es hchild h
  rw [neDoc_mk]
  exact valid_neEntries es
    (fun n ds dir c h1 hh hcs hv => hchild n ds dir c h1 hh hcs hv)
    (valid_parts h).2

theorem neEntries_lookup {n : Str} :
    ∀ {es : List (Str × List Directive)} {ds : List Directive},
    neEntries es = true → lookupEntries es n = some ds → ds ≠ [] := by
  intro es
  induction es with
  | nil => intro ds _ hl; simp [lookupEntries] at hl
  | cons e rest ih =>
    intro ds h hl
    obtain ⟨k, bs⟩ := e
    have h2 := neEntries_cons.mp h
    rw [lookupEntries] at hl
    by_cases hk : n = k
    · rw [if_pos hk] at hl
      simp only [Option.some.injEq] at hl
      subst hl
      exact h2.1
    · rw [if_neg hk] at hl
      exact ih h2.2.2 hl

/-- C9: every document reachable through the public operations keeps the
invariant that each key maps to a non-empty bucket (at every nesting
depth): parsing yields it, `add_directive` (hence `add`) and `remove`
preserve it; and under that invariant `get_all` is `some` exactly on
present keys and never `some []`, while `get` is `none` exactly when
`get_all` is. -/
theorem c9_nonempty_invariant :
    (∀ (mode : Mode) (s : Str) (d : Scfg),
      parseScfg mode s = .ok d → neDoc d = true) ∧
    (∀ (mode : Mode) (d : Scfg) (n : Str) (dir : Directive),
      neDoc d = true → dirNE dir = true →
      neDoc (d.addDirective mode n dir) = true ∧
        neDoc (Scfg.add mode d n) = true) ∧
    (∀ (mode : Mode) (d : Scfg) (n : Str),
      neDoc d = true → neDoc (Scfg.remove mode d n).2 = true) ∧
    (∀ (d : Scfg) (n : Str), neDoc d = true →
      ((d.getAll n).isSome = d.contains n ∧
       (∀ ds, d.getAll n = some ds → ds ≠ []) ∧
       (d.get n = none ↔ d.getAll n = none))) := by
  refine ⟨?_, ?_, ?_, ?_⟩
  · intro mode s d h
    exact valid_neDoc d (parse_valid h)
  · intro mode d n dir h hd
    exact ⟨neDoc_addDirective mode d n dir h hd,
      neDoc_addDirective mode d n Directive.default h rfl⟩
  · intro mode d n h
    exact neDoc_remove mode d n h
  · intro d n h
    obtain ⟨es⟩ := d
    have hes : neEntries es = true := by rw [← neDoc_mk]; exact h
    refine ⟨rfl, fun ds hds => neEntries_lookup hes hds, ?_, ?_⟩
    · intro hg
      cases hga : (Scfg.mk es).getAll n with
      | none => rfl
      | some ds =>
        have hne := neEntries_lookup hes hga
        cases ds with
        | nil => exact absurd rfl hne
        | cons a t =>
          rw [Scfg.get, hga] at hg
          simp at hg
    · intro hga
      rw [Scfg.get, hga]
      rfl

/-- A concrete parsed document with one directive. -/
def exDoc9 : Scfg := .mk [(['a'], [Directive.mk [] none])]

theorem c9_witness :
    neDoc exDoc9 = true ∧
    neDoc (Scfg.empty.addDirective .preserveOrder ['b'] (Directive.mk [] none)) = true ∧
    neDoc (Scfg.remove .preserveOrder exDoc9 ['a']).2 = true ∧
    (∀ ds, exDoc9.getAll ['a'] = some ds → ds ≠ []) := by
  have hlines : toLines ['a'] = [['a']] := by decide
  have hrb : readBlock .sorted Scfg.empty [['a']] 0 = .ok (exDoc9, false, [], 2) := by
    rw [readBlock_flat .sorted Scfg.empty _ _ 0 ['a'] []
      (by decide) (by decide) (by decide), readBlock_nil]
    rfl
  have hp : parseScfg .sorted ['a'] = .ok exDoc9 := by
    rw [parseScfg, hlines, documentLines, hrb]
  have hne : neDoc exDoc9 = true := c9_nonempty_invariant.1 .sorted ['a'] exDoc9 hp
  refine ⟨hne, ?_, ?_, ?_⟩
  · exact (c9_nonempty_invariant.2.1 .preserveOrder Scfg.empty ['b']
      (Directive.mk [] none) (by simp [Scfg.empty, neDoc_mk, neEntries]) rfl).1
  · exact c9_nonempty_invariant.2.2.1 .preserveOrder exDoc9 ['a'] hne
  · exact (c9_nonempty_invariant.2.2.2 exDoc9 ['a'] hne).2.1
